import Mathlib

/-!
Shallow embedding of the lffg-labs/ps4-graphs core: the forward/reverse
star digraph representation (tasks/representation-star/lib.cc) and the
iterative depth-first traversal with edge classification
(tasks/depth-search/main.cc).

Modelling conventions:
  - NodeId (uint32_t) and size_t/uint64_t values are modelled as Nat;
    none of the verified operations can overflow 32/64 bits on the
    inputs the claims quantify over, and no claim concerns wrap-around.
  - vector::at, which throws std::out_of_range, is modelled as an
    Option-valued checked access; a thrown exception is `none`
    propagated to the caller.  Writes through references obtained from
    a successful at() are modelled as List.set at the same index.
  - The visitor callbacks are modelled as an event trace: every call of
    tree/back/forward/cross edge visitors and of the vertex visitor
    appends one event, in call order.
-/

/-- Per-vertex DFS record (class dfs_entry): discovery time, finish time
(term_t) and parent, all zero-initialised. -/
structure dfs_entry where
  discovery_t : Nat := 0
  term_t : Nat := 0
  parent : Nat := 0
deriving DecidableEq, Repr

instance : Inhabited dfs_entry := ⟨{}⟩

/-- The four edge classes (enum digraph_edge_classification). -/
inductive digraph_edge_classification where
  | tree
  | back
  | forward
  | cross
deriving DecidableEq, Repr

/-- A directed edge (class Edge): an (orig, dest) pair.  The C++
constructor rejects a zero endpoint; the claims quantify over edge
collections whose endpoints lie in [1, vertex_count], which the
well-formedness hypotheses of the theorems record. -/
structure Edge where
  orig : Nat
  dest : Nat
deriving DecidableEq, Repr

/-- Comparator Edge::lt_by_orig: origin is the primary key, destination
secondary. -/
def lt_by_orig (a b : Edge) : Bool :=
  if a.orig ≠ b.orig then a.orig < b.orig else a.dest < b.dest

/-- Comparator Edge::lt_by_dest: destination primary, origin secondary. -/
def lt_by_dest (a b : Edge) : Bool :=
  if a.dest ≠ b.dest then a.dest < b.dest else a.orig < b.orig

/-- Generic strict comparator underlying both lt_by_orig and lt_by_dest:
key is the grouping key (orig for the forward variant, dest for the
reverse one) and val the remaining component. -/
def lt_star (key val : Edge → Nat) (a b : Edge) : Bool :=
  if key a ≠ key b then key a < key b else val a < val b

/-- The total preorder corresponding to sorting with the strict
comparator lt_star, as std::sort does: a precedes b when b is not
strictly less than a. -/
def le_star (key val : Edge → Nat) (a b : Edge) : Prop :=
  lt_star key val b a = false

instance (key val : Edge → Nat) : DecidableRel (le_star key val) :=
  fun _ _ => inferInstanceAs (Decidable (_ = false))

/-- The packed star representation: the pointer array and the flat
neighbor array, both with index 0 unused (the private fields shared by
ForwardStarDigraph and ReverseStarDigraph). -/
structure StarRep where
  ptrs : List Nat
  edges : List Nat
deriving DecidableEq, Repr

/-- Append the value elen to ptrs once per loop iteration; the while
loops below run a number of iterations that is fixed at loop entry. -/
def pushN (elen : Nat) : Nat → List Nat → List Nat
  | 0, ptrs => ptrs
  | n + 1, ptrs => pushN elen n (ptrs ++ [elen])

/-- The hole-avoidance while-loop of the constructors: advance last_key
up to the key of the edge being placed, pushing the current neighbor
array length once per skipped key value.  The loop body runs exactly
target - last_key times (zero when last_key is already >= target). -/
def starAdvance (elen : Nat) (lastKey target : Nat) (ptrs : List Nat) : List Nat :=
  pushN elen (target - lastKey) ptrs

/-- The main constructor loop over the sorted edge bag. -/
def starFold (key val : Edge → Nat) : List Edge → Nat → List Nat → List Nat → List Nat × List Nat
  | [], _, ptrs, edges => (ptrs, edges)
  | e :: rest, lastKey, ptrs, edges =>
    starFold key val rest (max lastKey (key e))
      (starAdvance edges.length lastKey (key e) ptrs) (edges ++ [val e])

/-- The trailing padding while-loop: pad the pointer array with the
final neighbor-array length up to vertex_count + 2 entries.  Each push
grows the length by one, so the loop runs ptrsSize - length times. -/
def starPad (ptrsSize elen : Nat) (ptrs : List Nat) : List Nat :=
  pushN elen (ptrsSize - ptrs.length) ptrs

/-- Shared constructor body of ForwardStarDigraph and ReverseStarDigraph
(the two C++ constructors are textually identical up to swapping the
roles of orig and dest, which spec section 9 also treats as unified):
sort the bag by the grouping key, run the linear placement pass starting
from ptrs = [0], edges = [0], then pad ptrs to vertex_count + 2
entries.  std::sort with the strict lex comparator is modelled by a
sort with the corresponding total preorder le_star; edges comparing
equal under it are identical (orig, dest) pairs, so the sorted list
is the same whatever correct sort is used. -/
def buildStar (key val : Edge → Nat) (vertex_count : Nat) (edge_bag : List Edge) : StarRep :=
  let sorted := List.insertionSort (le_star key val) edge_bag
  let (ptrs, edges) := starFold key val sorted 0 [0] [0]
  ⟨starPad (vertex_count + 2) edges.length ptrs, edges⟩

/-- ForwardStarDigraph constructor: each ptr is an orig, the neighbor
array holds destinations. -/
def ForwardStarDigraph (vertex_count : Nat) (edge_bag : List Edge) : StarRep :=
  buildStar (fun e => e.orig) (fun e => e.dest) vertex_count edge_bag

/-- ReverseStarDigraph constructor: each ptr is a dest, the neighbor
array holds origins. -/
def ReverseStarDigraph (vertex_count : Nat) (edge_bag : List Edge) : StarRep :=
  buildStar (fun e => e.dest) (fun e => e.orig) vertex_count edge_bag

/-- vertexes_count(): ptrs has two extra elements (unused slot 0 and the
trailing sentinel). -/
def vertexes_count (g : StarRep) : Nat :=
  g.ptrs.length - 2

/-- vertexes(): iota(1, ptrs.size() - 1), i.e. the ids 1..vertex_count. -/
def vertexes (g : StarRep) : List Nat :=
  List.range' 1 (g.ptrs.length - 2)

/-- successors(v) / predecessors(v): the slice [ptrs.at(v), ptrs.at(v+1))
of the neighbor array.  The two ptrs.at calls throw (give none) when v+1
is outside the pointer array.  The slice itself is formed by unchecked
iterator arithmetic in C++; for every graph the constructors build, the
pointer array is monotone and bounded by the neighbor-array length, so
the take/drop slice below coincides with it. -/
def successors (g : StarRep) (vertex : Nat) : Option (List Nat) :=
  match g.ptrs[vertex]?, g.ptrs[vertex + 1]? with
  | some s, some e => some ((g.edges.take e).drop s)
  | _, _ => none

/-- predecessors(v) of the reverse representation: same range lookup. -/
def predecessors (g : StarRep) (vertex : Nat) : Option (List Nat) :=
  match g.ptrs[vertex]?, g.ptrs[vertex + 1]? with
  | some s, some e => some ((g.edges.take e).drop s)
  | _, _ => none

/-- outdegree(v) / indegree(v): the length of the neighbor range. -/
def outdegree (g : StarRep) (vertex : Nat) : Option Nat :=
  (successors g vertex).map List.length

/-- indegree(v) of the reverse representation. -/
def indegree (g : StarRep) (vertex : Nat) : Option Nat :=
  (predecessors g vertex).map List.length

/-- Result record of the degree scans (struct vertex_degree). -/
structure vertex_degree where
  vertex : Nat
  degree : Nat
deriving DecidableEq, Repr

/-- The scan shared by max_outdegree() and max_indegree(): run over all
vertexes with accumulator (max_v, max_deg) initialised to (0, 0),
replacing it whenever the current degree is strictly greater. -/
def max_degree_scan (degOf : Nat → Option Nat) : List Nat → vertex_degree → Option vertex_degree
  | [], acc => some acc
  | v :: vs, acc =>
    match degOf v with
    | none => none
    | some d => max_degree_scan degOf vs (if d > acc.degree then ⟨v, d⟩ else acc)

/-- max_outdegree(): first vertex of maximum outdegree, by strict
greater-than scan. -/
def max_outdegree (g : StarRep) : Option vertex_degree :=
  max_degree_scan (outdegree g) (vertexes g) ⟨0, 0⟩

/-- max_indegree(): first vertex of maximum indegree. -/
def max_indegree (g : StarRep) : Option vertex_degree :=
  max_degree_scan (indegree g) (vertexes g) ⟨0, 0⟩

/-- dfs_result::at_v(i): ctl.at(i - 1).  For i = 0 the uint32 index
wraps around and at() throws, hence none. -/
def at_v (res : List dfs_entry) (i : Nat) : Option dfs_entry :=
  if 1 ≤ i then res[i - 1]? else none

/-- Write through a reference obtained from at_v: update entry i in
place.  Every write site in the traversal performs the write after a
successful at_v read of the same index, so the none branch is
unreachable there. -/
def updAt (res : List dfs_entry) (i : Nat) (f : dfs_entry → dfs_entry) : List dfs_entry :=
  match at_v res i with
  | some e => res.set (i - 1) (f e)
  | none => res

/-- Discovery-time projection with default 0 for an out-of-range id. -/
def discAt (res : List dfs_entry) (i : Nat) : Nat :=
  ((at_v res i).map dfs_entry.discovery_t).getD 0

/-- Finish-time projection with default 0. -/
def termAt (res : List dfs_entry) (i : Nat) : Nat :=
  ((at_v res i).map dfs_entry.term_t).getD 0

/-- Parent projection with default 0. -/
def parentAt (res : List dfs_entry) (i : Nat) : Nat :=
  ((at_v res i).map dfs_entry.parent).getD 0

/-- dfs_result::classify_edge(orig, dest), verbatim from the source:
note that the branch for a destination finished before the origin was
discovered returns forward (line 81), and that no branch returns
cross. -/
def classify_edge (res : List dfs_entry) (orig dest : Nat) : Option digraph_edge_classification :=
  match at_v res orig, at_v res dest with
  | some orig_e, some dest_e =>
    some (if orig_e.discovery_t < dest_e.discovery_t then
            (if dest_e.parent = orig then digraph_edge_classification.tree
             else digraph_edge_classification.forward)
          else if dest_e.term_t < orig_e.discovery_t then digraph_edge_classification.forward
          else digraph_edge_classification.back)
  | _, _ => none

/-- One visitor invocation of the traversal engine: the four edge-event
callbacks and the vertex-discovery callback. -/
inductive DfsEvent where
  | vertex : Nat → DfsEvent
  | tree : Nat → Nat → DfsEvent
  | back : Nat → Nat → DfsEvent
  | forward : Nat → Nat → DfsEvent
  | cross : Nat → Nat → DfsEvent
deriving DecidableEq, Repr

/-- The for-loop over g.successors(v) inside dfs::dfs_v, up to (and
excluding) the first undiscovered successor: emits one back / forward /
cross event per already-discovered successor scanned, in order, and
reports the first undiscovered successor, if any, at which the C++ code
emits a tree event, pushes, and restarts the outer loop.  vdisc is the
discovery time of v (read through the v_entry reference bound at the
loop head).  A successor outside the entry table makes at_v throw. -/
def scanSuccs (res : List dfs_entry) (vdisc : Nat) (v : Nat) : List Nat → Option (List DfsEvent × Option Nat)
  | [] => some ([], none)
  | s :: rest =>
    match at_v res s with
    | none => none
    | some succ_entry =>
      if succ_entry.discovery_t = 0 then some ([], some s)
      else
        let ev := if succ_entry.term_t = 0 then DfsEvent.back v s
                  else if vdisc < succ_entry.discovery_t then DfsEvent.forward v s
                  else DfsEvent.cross v s
        match scanSuccs res vdisc v rest with
        | none => none
        | some (evs, r) => some (ev :: evs, r)

/-- Number of undiscovered entries; the termination measure of the
traversal decreases with it. -/
def countUndisc (res : List dfs_entry) : Nat :=
  res.countP (fun e => e.discovery_t == 0)

/-- The while-loop of dfs::dfs_v.  One iteration handles the stack top
v: it reads v's entry (the v_entry reference bound at line 139), scans
g.successors(v) and either pushes the first undiscovered successor s
(tree event, parent write, push; the goto restarts the loop, whose next
head immediately sets s's discovery time and fires the vertex visitor,
with no action in between — the model merges the push with that
discovery), or, when the whole range is already resolved, pops v and
sets its finish time.  The first argument is the quantity
2 * countUndisc res + stack.length, which decreases by exactly one per
iteration, so it doubles as structural fuel; the fuel-exhaustion branch
is unreachable (dfsLoop_cons below proves the fuel-free unfolding). -/
def dfsLoopF (g : StarRep) (fuel : Nat) (stack : List Nat) (res : List dfs_entry)
    (time : Nat) (events : List DfsEvent) : Option (List dfs_entry × Nat × List DfsEvent) :=
  match stack with
  | [] => some (res, time, events)
  | v :: rest =>
    match fuel with
    | 0 => none
    | fuel + 1 =>
      match at_v res v with
      | none => none
      | some v_entry =>
        match successors g v with
        | none => none
        | some succs =>
          match scanSuccs res v_entry.discovery_t v succs with
          | none => none
          | some (evs, none) =>
            dfsLoopF g fuel rest (updAt res v (fun e => {e with term_t := time + 1}))
              (time + 1) (events ++ evs)
          | some (evs, some s) =>
            dfsLoopF g fuel (s :: v :: rest)
              (updAt (updAt res s (fun e => {e with parent := v})) s
                (fun e => {e with discovery_t := time + 1}))
              (time + 1) (events ++ evs ++ [DfsEvent.tree v s, DfsEvent.vertex s])

/-- The dfs_v while-loop at its exact iteration count. -/
def dfsLoop (g : StarRep) (stack : List Nat) (res : List dfs_entry) (time : Nat)
    (events : List DfsEvent) : Option (List dfs_entry × Nat × List DfsEvent) :=
  dfsLoopF g (2 * countUndisc res + stack.length) stack res time events

/-- dfs::dfs_v(g, st, time, res, starting_vertex): push the start vertex
and enter the loop.  The first loop iteration reads the entry of the
pushed vertex and sets its discovery time; as no action intervenes, the
model performs that discovery here before entering dfsLoop. -/
def dfs_v (g : StarRep) (res : List dfs_entry) (time : Nat) (events : List DfsEvent)
    (starting_vertex : Nat) : Option (List dfs_entry × Nat × List DfsEvent) :=
  match at_v res starting_vertex with
  | none => none
  | some _ =>
    dfsLoop g [starting_vertex]
      (updAt res starting_vertex (fun e => {e with discovery_t := time + 1}))
      (time + 1) (events ++ [DfsEvent.vertex starting_vertex])

/-- The for-loop of dfs::execute over g.vertexes(): start a new DFS
tree at each vertex not yet discovered. -/
def executeLoop (g : StarRep) : List Nat → List dfs_entry → Nat → List DfsEvent → Option (List dfs_entry × Nat × List DfsEvent)
  | [], res, time, events => some (res, time, events)
  | v :: vs, res, time, events =>
    match at_v res v with
    | none => none
    | some e =>
      if e.discovery_t ≠ 0 then executeLoop g vs res time events
      else
        match dfs_v g res time events v with
        | none => none
        | some (res', time', events') => executeLoop g vs res' time' events'

/-- dfs::execute(g): fresh zero-initialised result of size
g.vertexes_count(), clock starting at 0, then the root loop.  Returns
the final result record, the final clock, and the visitor event
trace. -/
def execute (g : StarRep) : Option (List dfs_entry × Nat × List DfsEvent) :=
  executeLoop g (vertexes g) (List.replicate (vertexes_count g) {}) 0 []

/-- Modelled from the spec: the body of textbook recursive DFS, used as
the reference for the refinement claim that the iterative engine
produces recursive-DFS timestamps.  recSuccs child v l res time
processes the (remaining) successor list l of the already discovered
vertex v: an undiscovered successor s gets parent v and the next clock
tick as discovery time and is handed to the child visitor, which
processes its whole subtree; at the end of the list v is finished. -/
def recSuccs (child : Nat → List dfs_entry → Nat → Option (List dfs_entry × Nat)) (v : Nat) :
    List Nat → List dfs_entry → Nat → Option (List dfs_entry × Nat)
  | [], res, time => some (updAt res v (fun e => {e with term_t := time + 1}), time + 1)
  | s :: rest, res, time =>
    match at_v res s with
    | none => none
    | some se =>
      if se.discovery_t = 0 then
        match child s
            (updAt (updAt res s (fun e => {e with parent := v}))
              s (fun e => {e with discovery_t := time + 1})) (time + 1) with
        | none => none
        | some (res', time') => recSuccs child v rest res' time'
      else recSuccs child v rest res time

/-- Modelled from the spec: recursive processing of the subtree of an
already discovered vertex v — walk its successor list, then finish v.
The fuel argument only bounds the recursion depth to make the
definition total; every top-level call supplies at least as much fuel
as the number of undiscovered vertices, so the fuel-exhaustion branch
is never taken (this is proved, not assumed, by the refinement
theorem). -/
def recVisit (g : StarRep) : Nat → Nat → List dfs_entry → Nat → Option (List dfs_entry × Nat)
  | 0, _, _, _ => none
  | fuel + 1, v, res, time =>
    match successors g v with
    | none => none
    | some ls => recSuccs (recVisit g fuel) v ls res time

/-- Modelled from the spec: process all successors of the already
discovered vertex v, then finish v; inner recursive calls run with the
fuel-bounded visitor. -/
def recRemain (g : StarRep) (fuel v : Nat) (res : List dfs_entry) (time : Nat) : Option (List dfs_entry × Nat) :=
  match successors g v with
  | none => none
  | some ls => recSuccs (recVisit g fuel) v ls res time

/-- Modelled from the spec: recursive DFS visit of a root vertex —
discover it, then process its successors and finish it. -/
def dfs_v_rec (g : StarRep) (fuel : Nat) (res : List dfs_entry) (time : Nat) (v : Nat) : Option (List dfs_entry × Nat) :=
  match at_v res v with
  | none => none
  | some _ =>
    recRemain g fuel v (updAt res v (fun e => {e with discovery_t := time + 1})) (time + 1)

/-- Modelled from the spec: the root loop of recursive DFS, starting a
new tree at each undiscovered vertex in ascending vertex order. -/
def executeLoopRec (g : StarRep) (fuel : Nat) : List Nat → List dfs_entry → Nat → Option (List dfs_entry × Nat)
  | [], res, time => some (res, time)
  | v :: vs, res, time =>
    match at_v res v with
    | none => none
    | some e =>
      if e.discovery_t ≠ 0 then executeLoopRec g fuel vs res time
      else
        match dfs_v_rec g fuel res time v with
        | none => none
        | some (res', time') => executeLoopRec g fuel vs res' time'

/-- Modelled from the spec: standard recursive DFS over the whole graph,
same initial state and root order as execute.  The fuel vertex_count + 1
strictly exceeds the number of undiscovered vertices at every recursive
call. -/
def executeRec (g : StarRep) : Option (List dfs_entry × Nat) :=
  executeLoopRec g (vertexes_count g + 1) (vertexes g)
    (List.replicate (vertexes_count g) {}) 0

/-- Relation between an entry table and a later state of it produced by
the traversal: same size, no fewer discovered vertices, and every
already assigned discovery time untouched. -/
def PreservesEntries (res res' : List dfs_entry) : Prop :=
  res'.length = res.length ∧ countUndisc res' ≤ countUndisc res
    ∧ ∀ u, discAt res u ≠ 0 → discAt res' u = discAt res u

/-- The evolution of the last_key variable across the constructor loop:
the running maximum of the keys seen, starting from the given base. -/
def keyCeil (key : Edge → Nat) : List Edge → Nat → Nat
  | [], acc => acc
  | e :: rest, acc => keyCeil key rest (max acc (key e))

/-- Projection of a traversal outcome to its entry table and clock,
dropping the event trace; used to compare the iterative engine with the
recursive reference, which has no visitors. -/
def projRT (out : List dfs_entry × Nat × List DfsEvent) : List dfs_entry × Nat :=
  (out.1, out.2.1)

/-- Recogniser for a vertex-discovery event of vertex u. -/
def isVertexEv (u : Nat) : DfsEvent → Bool
  | DfsEvent.vertex w => w == u
  | _ => false

/-- Recogniser for a tree event whose destination is u. -/
def isTreeToEv (u : Nat) : DfsEvent → Bool
  | DfsEvent.tree _ w => w == u
  | _ => false

/-- The invariant of the traversal engine, relating the entry table,
the clock, the explicit stack and the event trace at every loop
boundary:
times assigned so far are bounded by the clock and each clock value in
[1, time] is held by exactly one discovery or finish slot; a finished
entry was discovered first and strictly earlier; an undiscovered entry
has no parent and no finish time; the clock counts one tick per
discovery plus one per finish; stack members are in-range, discovered
and unfinished, the stack has no duplicates, and every discovered
unfinished vertex is on it; the trace holds exactly one discovery event
per discovered vertex and exactly one tree event per vertex with a
parent. -/
structure DfsInv (res : List dfs_entry) (time : Nat) (stack : List Nat)
    (events : List DfsEvent) : Prop where
  bounds : ∀ e ∈ res, e.discovery_t ≤ time ∧ e.term_t ≤ time
  times : ∀ k, 1 ≤ k → k ≤ time →
    res.countP (fun e => e.discovery_t == k) + res.countP (fun e => e.term_t == k) = 1
  order : ∀ e ∈ res, e.term_t ≠ 0 → e.discovery_t ≠ 0 ∧ e.discovery_t < e.term_t
  fresh : ∀ e ∈ res, e.discovery_t = 0 → e.parent = 0 ∧ e.term_t = 0
  clock : time = res.countP (fun e => e.discovery_t != 0) + res.countP (fun e => e.term_t != 0)
  stk : ∀ u ∈ stack, 1 ≤ u ∧ u ≤ res.length ∧ discAt res u ≠ 0 ∧ termAt res u = 0
  nodup : stack.Nodup
  open_on_stack : ∀ u, 1 ≤ u → u ≤ res.length → discAt res u ≠ 0 → termAt res u = 0 →
    u ∈ stack
  vd_count : ∀ u, events.countP (isVertexEv u) = if discAt res u ≠ 0 then 1 else 0
  tree_count : ∀ u, events.countP (isTreeToEv u) = if parentAt res u ≠ 0 then 1 else 0

theorem countP_set_balance (p : dfs_entry → Bool) (l : List dfs_entry) (i : Nat) (a : dfs_entry)
    (h : i < l.length) :
    (l.set i a).countP p + (if p l[i] then 1 else 0) = l.countP p + (if p a then 1 else 0) := by
  rw [List.set_eq_take_cons_drop a h]
  conv_rhs => rw [show l = l.take i ++ l[i] :: l.drop (i + 1) by
    rw [← List.drop_eq_getElem_cons h, List.take_append_drop]]
  simp only [List.countP_append, List.countP_cons]
  omega

theorem at_v_some_bounds {res : List dfs_entry} {i : Nat} {e : dfs_entry}
    (h : at_v res i = some e) : 1 ≤ i ∧ i - 1 < res.length ∧ res[i - 1]? = some e := by
  unfold at_v at h
  by_cases h1 : 1 ≤ i
  · simp only [if_pos h1] at h
    exact ⟨h1, (List.getElem?_eq_some_iff.mp h).1, h⟩
  · simp [h1] at h

theorem length_updAt (res : List dfs_entry) (i : Nat) (f : dfs_entry → dfs_entry) :
    (updAt res i f).length = res.length := by
  unfold updAt
  cases h : at_v res i <;> simp

theorem at_v_updAt (res : List dfs_entry) (v : Nat) (f : dfs_entry → dfs_entry) (u : Nat) :
    at_v (updAt res v f) u = if u = v then (at_v res u).map f else at_v res u := by
  unfold updAt
  cases hv : at_v res v with
  | none =>
    by_cases h : u = v
    · subst h; simp [hv]
    · simp [h]
  | some e =>
    obtain ⟨hv1, hvlen, hvget⟩ := at_v_some_bounds hv
    by_cases h : u = v
    · subst h
      unfold at_v
      simp only [if_pos hv1]
      rw [List.getElem?_set_self hvlen]
      unfold at_v at hv
      simp only [if_pos hv1] at hv
      simp [hv]
    · rw [if_neg h]
      unfold at_v
      by_cases h1 : 1 ≤ u
      · simp only [if_pos h1]
        exact List.getElem?_set_ne (by omega)
      · simp [h1]

theorem countUndisc_updAt_keep (res : List dfs_entry) (v : Nat) (f : dfs_entry → dfs_entry)
    (hf : ∀ x, (f x).discovery_t = x.discovery_t) :
    countUndisc (updAt res v f) = countUndisc res := by
  cases hv : at_v res v with
  | none => unfold updAt; rw [hv]
  | some e =>
    have hupd : updAt res v f = res.set (v - 1) (f e) := by unfold updAt; rw [hv]
    obtain ⟨hv1, hvlen, hvget⟩ := at_v_some_bounds hv
    rw [hupd]
    unfold countUndisc
    have hb := countP_set_balance (fun x => x.discovery_t == 0) res (v - 1) (f e) hvlen
    have hgi : res[v - 1] = e := by
      have h2 := List.getElem?_eq_getElem hvlen
      rw [h2] at hvget
      exact Option.some.inj hvget
    rw [hgi] at hb
    simp only [hf] at hb
    omega

theorem countUndisc_updAt_discover (res : List dfs_entry) (v t : Nat) (e : dfs_entry)
    (he : at_v res v = some e) (h0 : e.discovery_t = 0) (ht : t ≠ 0) :
    countUndisc (updAt res v (fun x => {x with discovery_t := t})) + 1 = countUndisc res := by
  have hupd : updAt res v (fun x => {x with discovery_t := t})
      = res.set (v - 1) {e with discovery_t := t} := by unfold updAt; rw [he]
  obtain ⟨hv1, hvlen, hvget⟩ := at_v_some_bounds he
  rw [hupd]
  unfold countUndisc
  have hb := countP_set_balance (fun x => x.discovery_t == 0) res (v - 1)
    ({e with discovery_t := t}) hvlen
  have hgi : res[v - 1] = e := by
    have h2 := List.getElem?_eq_getElem hvlen
    rw [h2] at hvget
    exact Option.some.inj hvget
  rw [hgi] at hb
  have htrue : (e.discovery_t == 0) = true := by simp [h0]
  have hfalse : (({e with discovery_t := t} : dfs_entry).discovery_t == 0) = false := by
    simp [ht]
  rw [htrue, hfalse] at hb
  simp at hb
  omega

theorem scanSuccs_found (res : List dfs_entry) (vd v : Nat) :
    ∀ (l : List Nat) (evs : List DfsEvent) (s : Nat),
      scanSuccs res vd v l = some (evs, some s) →
      ∃ se, at_v res s = some se ∧ se.discovery_t = 0 := by
  intro l
  induction l with
  | nil => intro evs s h; simp [scanSuccs] at h
  | cons x rest ih =>
    intro evs s h
    unfold scanSuccs at h
    cases hx : at_v res x with
    | none => rw [hx] at h; exact absurd h (by simp)
    | some xe =>
      rw [hx] at h
      dsimp only at h
      by_cases hd : xe.discovery_t = 0
      · rw [if_pos hd] at h
        simp only [Option.some.injEq, Prod.mk.injEq] at h
        obtain ⟨-, rfl⟩ := h
        exact ⟨xe, hx, hd⟩
      · rw [if_neg hd] at h
        rcases hr : scanSuccs res vd v rest with - | ⟨evs', r⟩
        · rw [hr] at h; simp at h
        · rw [hr] at h
          simp only [Option.some.injEq, Prod.mk.injEq] at h
          obtain ⟨-, hr2⟩ := h
          exact ih evs' s (by rw [hr, hr2])

theorem dfsLoop_nil (g : StarRep) (res : List dfs_entry) (time : Nat) (events : List DfsEvent) :
    dfsLoop g [] res time events = some (res, time, events) := by
  unfold dfsLoop dfsLoopF
  rfl

theorem dfsLoop_cons (g : StarRep) (v : Nat) (rest : List Nat) (res : List dfs_entry)
    (time : Nat) (events : List DfsEvent) :
    dfsLoop g (v :: rest) res time events =
      match at_v res v with
      | none => none
      | some v_entry =>
        match successors g v with
        | none => none
        | some succs =>
          match scanSuccs res v_entry.discovery_t v succs with
          | none => none
          | some (evs, none) =>
            dfsLoop g rest (updAt res v (fun e => {e with term_t := time + 1}))
              (time + 1) (events ++ evs)
          | some (evs, some s) =>
            dfsLoop g (s :: v :: rest)
              (updAt (updAt res s (fun e => {e with parent := v})) s
                (fun e => {e with discovery_t := time + 1}))
              (time + 1) (events ++ evs ++ [DfsEvent.tree v s, DfsEvent.vertex s]) := by
  show dfsLoopF g (2 * countUndisc res + (v :: rest).length) (v :: rest) res time events = _
  rw [show 2 * countUndisc res + (v :: rest).length
      = (2 * countUndisc res + rest.length) + 1 by simp [List.length_cons]; omega]
  show (match at_v res v with
    | none => none
    | some v_entry =>
      match successors g v with
      | none => none
      | some succs =>
        match scanSuccs res v_entry.discovery_t v succs with
        | none => none
        | some (evs, none) =>
          dfsLoopF g (2 * countUndisc res + rest.length) rest
            (updAt res v (fun e => {e with term_t := time + 1})) (time + 1) (events ++ evs)
        | some (evs, some s) =>
          dfsLoopF g (2 * countUndisc res + rest.length) (s :: v :: rest)
            (updAt (updAt res s (fun e => {e with parent := v})) s
              (fun e => {e with discovery_t := time + 1}))
            (time + 1) (events ++ evs ++ [DfsEvent.tree v s, DfsEvent.vertex s])) = _
  cases hv : at_v res v with
  | none => rfl
  | some v_entry =>
    dsimp only
    cases hsucc : successors g v with
    | none => rfl
    | some succs =>
      dsimp only
      cases hscan : scanSuccs res v_entry.discovery_t v succs with
      | none => rfl
      | some p =>
        obtain ⟨evs, r⟩ := p
        cases r with
        | none =>
          dsimp only
          unfold dfsLoop
          rw [countUndisc_updAt_keep res v (fun e => {e with term_t := time + 1}) (fun x => rfl)]
        | some s =>
          dsimp only
          unfold dfsLoop
          obtain ⟨se, hse, hse0⟩ := scanSuccs_found res v_entry.discovery_t v succs evs s hscan
          have h1 : countUndisc (updAt res s (fun e => {e with parent := v})) = countUndisc res :=
            countUndisc_updAt_keep res s (fun e => {e with parent := v}) (fun x => rfl)
          have h2 : at_v (updAt res s (fun e => {e with parent := v})) s
              = some {se with parent := v} := by
            rw [at_v_updAt]; simp [hse]
          have h3 := countUndisc_updAt_discover _ s (time + 1) _ h2 hse0 (by omega)
          congr 1
          simp only [List.length_cons]
          omega

/-- The spec's concrete scenario graph: vertices 1..3, edge bag
(1,2), (2,3), (1,3) in input order. -/
def triangleGraph : StarRep := ForwardStarDigraph 3 [⟨1, 2⟩, ⟨2, 3⟩, ⟨1, 3⟩]

/-- A three-vertex graph whose DFS produces a cross edge: edges (1,2)
and (3,2).  The traversal finishes the tree {1, 2} first, then starts a
new tree at 3, whose edge to the already finished vertex 2 is a cross
edge. -/
def crossPairGraph : StarRep := ForwardStarDigraph 3 [⟨1, 2⟩, ⟨3, 2⟩]

/-- C1: the claim states that classify_edge returns cross exactly when
discovery(origin) >= discovery(destination) and finish(destination) <
discovery(origin).  The code instead returns forward on that branch
(line 81 of the traversal source) and has no branch at all returning
cross, contradicting both the spec's classifier table and the live
emission rule of dfs_v, which emits a cross event in exactly that
situation.  On the DFS result of crossPairGraph the queried edge (3, 2)
has discovery(3) = 5 >= discovery(2) = 2 and finish(2) = 3 <
discovery(3) = 5, yet classify_edge answers forward, not cross.  The
back clause of the claim is also covered: the returned value is not
back either, as the claim's back condition indeed fails here. -/
theorem classify_edge_cross_branch_code_bug :
    ((execute crossPairGraph).map
        (fun out => (discAt out.1 3, discAt out.1 2, termAt out.1 2)) = some (5, 2, 3))
    ∧ ((execute crossPairGraph).map (fun out => classify_edge out.1 3 2)
        = some (some digraph_edge_classification.forward)) := by decide

/-- C2: the claim states that classify_edge agrees with the edge event
emitted by the traversal for every graph edge.  For the edge (3, 2) of
crossPairGraph the engine emits a cross event (its only event for that
edge), while classify_edge on the completed result answers forward, so
the two classifications disagree. -/
theorem classify_edge_disagrees_with_emitted_event :
    ((execute crossPairGraph).map
        (fun out => (out.2.2.count (DfsEvent.cross 3 2), out.2.2.count (DfsEvent.forward 3 2)))
      = some (1, 0))
    ∧ ((execute crossPairGraph).map (fun out => classify_edge out.1 3 2)
        = some (some digraph_edge_classification.forward)) := by decide

/-- C4 counterexample: the claim states that on the triangle scenario
the engine emits a forward-edge event exactly for (1, 3) and for no
other edge.  In fact a forward event is also emitted for (1, 2): when
control returns to vertex 1 after its subtree is finished, the
successor scan restarts from the beginning and re-emits the resolved
tree edge (1, 2) as a forward event. -/
theorem triangle_forward_event_not_only_for_edge_1_3 :
    (execute triangleGraph).map
        (fun out => (out.2.2.count (DfsEvent.forward 1 2), out.2.2.count (DfsEvent.forward 1 3)))
      = some (1, 1) := by decide

/-- C4 amended: on the triangle graph the traversal assigns discovery
times 1, 2, 3 and finish times 6, 5, 4 to vertices 1, 2, 3, emits tree
events exactly for (1, 2) and (2, 3), emits no back or cross events,
and emits forward events for (2, 3), (1, 2) and (1, 3) in that order:
besides the forward edge (1, 3) of the spec's scenario, each of the two
tree edges is re-emitted as a forward event when the scan of its origin
restarts after the subtree below it has finished. -/
theorem triangle_execute_full_trace :
    execute triangleGraph = some
      ([⟨1, 6, 0⟩, ⟨2, 5, 1⟩, ⟨3, 4, 2⟩], 6,
       [DfsEvent.vertex 1, DfsEvent.tree 1 2, DfsEvent.vertex 2, DfsEvent.tree 2 3,
        DfsEvent.vertex 3, DfsEvent.forward 2 3, DfsEvent.forward 1 2,
        DfsEvent.forward 1 3]) := by decide

/-- C7 counterexample: the claim states that on a graph with no edges
max_outdegree returns degree 0 paired with vertex 1, the first vertex
scanned.  The scan keeps its accumulator (vertex 0, degree 0) because
the strict comparison 0 > 0 never fires, so the returned vertex is 0 —
which is not a vertex of the graph at all — and not vertex 1. -/
theorem max_outdegree_edgeless_returns_vertex_zero :
    max_outdegree (ForwardStarDigraph 1 []) = some ⟨0, 0⟩
    ∧ max_outdegree (ForwardStarDigraph 1 []) ≠ some ⟨1, 0⟩
    ∧ max_indegree (ReverseStarDigraph 1 []) = some ⟨0, 0⟩ := by decide

/-- C9 counterexample: the claim states that successors(v) for v
outside [1, vertex_count] either raises an index error or returns an
empty range and never yields spurious neighbors.  For v = 0 the range
lookup reads ptrs[0] = 0 and ptrs[1] = 1 and returns the one-element
slice holding the unused sentinel entry 0 of the neighbor array: a
non-empty range containing the spurious neighbor 0, with no error. -/
theorem successors_of_vertex_zero_yields_sentinel :
    successors (ForwardStarDigraph 1 []) 0 = some [0]
    ∧ ¬ (successors (ForwardStarDigraph 1 []) 0 = none
         ∨ successors (ForwardStarDigraph 1 []) 0 = some [])
    ∧ predecessors (ReverseStarDigraph 1 []) 0 = some [0] := by decide

theorem pushN_eq (elen : Nat) : ∀ (n : Nat) (ptrs : List Nat),
    pushN elen n ptrs = ptrs ++ List.replicate n elen := by
  intro n
  induction n with
  | zero => intro ptrs; simp [pushN]
  | succ m ih =>
    intro ptrs
    rw [pushN, ih]
    simp [List.replicate_succ]

theorem lt_star_iff (key val : Edge → Nat) (a b : Edge) :
    lt_star key val a b = true ↔ (key a < key b ∨ (key a = key b ∧ val a < val b)) := by
  unfold lt_star
  by_cases h : key a = key b <;> simp [h]

theorem le_star_iff (key val : Edge → Nat) (a b : Edge) :
    le_star key val a b ↔ (key a < key b ∨ (key a = key b ∧ val a ≤ val b)) := by
  unfold le_star
  rw [Bool.eq_false_iff, ne_eq, lt_star_iff]
  omega

theorem insertionSort_key_pairwise (key val : Edge → Nat) (S : List Edge) :
    (List.insertionSort (le_star key val) S).Pairwise (fun a b => key a ≤ key b) := by
  haveI : IsTotal Edge (le_star key val) := ⟨by
    intro a b
    rw [le_star_iff, le_star_iff]
    omega⟩
  haveI : IsTrans Edge (le_star key val) := ⟨by
    intro a b c hab hbc
    rw [le_star_iff] at hab hbc ⊢
    omega⟩
  have hs := List.sorted_insertionSort (le_star key val) S
  exact hs.imp (fun h => by rw [le_star_iff] at h; omega)

theorem pairwise_key_decomp (key : Edge → Nat) (v : Nat) :
    ∀ (l : List Edge), l.Pairwise (fun a b => key a ≤ key b) →
      l = l.filter (fun e => key e < v) ++ l.filter (fun e => key e = v)
          ++ l.filter (fun e => v < key e) := by
  intro l
  induction l with
  | nil => simp
  | cons e t ih =>
    intro hp
    have ht : t.Pairwise (fun a b => key a ≤ key b) := hp.of_cons
    have hhead : ∀ x ∈ t, key e ≤ key x := fun x hx => List.rel_of_pairwise_cons hp hx
    rcases Nat.lt_trichotomy (key e) v with h | h | h
    · rw [List.filter_cons_of_pos (by simpa using h),
        List.filter_cons_of_neg (by simp; omega),
        List.filter_cons_of_neg (by simp; omega)]
      conv_lhs => rw [ih ht]
      simp
    · have h1 : t.filter (fun e => decide (key e < v)) = [] := by
        rw [List.filter_eq_nil_iff]
        intro x hx
        have := hhead x hx
        simp
        omega
      rw [List.filter_cons_of_neg (by simp; omega),
        List.filter_cons_of_pos (by simpa using h),
        List.filter_cons_of_neg (by simp; omega), h1]
      conv_lhs => rw [ih ht]
      rw [h1]
      simp
    · have h1 : t.filter (fun e => decide (key e < v)) = [] := by
        rw [List.filter_eq_nil_iff]
        intro x hx
        have := hhead x hx
        simp
        omega
      have h2 : t.filter (fun e => decide (key e = v)) = [] := by
        rw [List.filter_eq_nil_iff]
        intro x hx
        have := hhead x hx
        simp
        omega
      rw [List.filter_cons_of_neg (by simp; omega),
        List.filter_cons_of_neg (by simp; omega),
        List.filter_cons_of_pos (by simpa using h), h1, h2]
      conv_lhs => rw [ih ht]
      rw [h1, h2]
      simp

theorem keyCeil_ge_base (key : Edge → Nat) :
    ∀ (l : List Edge) (base : Nat), base ≤ keyCeil key l base := by
  intro l
  induction l with
  | nil => intro base; simp [keyCeil]
  | cons x t ih =>
    intro base
    unfold keyCeil
    exact le_trans (Nat.le_max_left base (key x)) (ih _)

theorem keyCeil_ge_mem (key : Edge → Nat) :
    ∀ (l : List Edge) (base : Nat) (e : Edge), e ∈ l → key e ≤ keyCeil key l base := by
  intro l
  induction l with
  | nil => intro base e he; simp at he
  | cons x t ih =>
    intro base e he
    rcases List.mem_cons.mp he with rfl | he
    · unfold keyCeil
      exact le_trans (Nat.le_max_right base (key e)) (keyCeil_ge_base key t _)
    · unfold keyCeil
      exact ih _ e he

theorem keyCeil_le (key : Edge → Nat) :
    ∀ (l : List Edge) (base m : Nat), base ≤ m → (∀ e ∈ l, key e ≤ m) →
      keyCeil key l base ≤ m := by
  intro l
  induction l with
  | nil => intro base m hb _; simpa [keyCeil] using hb
  | cons x t ih =>
    intro base m hb hm
    unfold keyCeil
    refine ih _ m ?_ (fun e he => hm e (by simp [he]))
    have := hm x (by simp)
    omega

theorem starFold_char (key val : Edge → Nat) :
    ∀ (l : List Edge) (lastKey : Nat) (ptrs edges : List Nat),
      l.Pairwise (fun a b => key a ≤ key b) →
      (∀ e ∈ l, lastKey ≤ key e) →
      ptrs.length = lastKey + 1 →
      (starFold key val l lastKey ptrs edges).2 = edges ++ l.map val
      ∧ (starFold key val l lastKey ptrs edges).1.length = keyCeil key l lastKey + 1
      ∧ (∀ j, j ≤ lastKey → (starFold key val l lastKey ptrs edges).1[j]? = ptrs[j]?)
      ∧ (∀ j, lastKey < j → j ≤ keyCeil key l lastKey →
          (starFold key val l lastKey ptrs edges).1[j]?
            = some (edges.length + l.countP (fun e => key e < j))) := by
  intro l
  induction l with
  | nil =>
    intro lastKey ptrs edges _ _ hlen
    refine ⟨by simp [starFold], by simpa [starFold, keyCeil] using hlen,
      fun j _ => rfl, fun j hj1 hj2 => ?_⟩
    unfold keyCeil at hj2
    omega
  | cons e t ih =>
    intro lastKey ptrs edges hp hge hlen
    have hle : lastKey ≤ key e := hge e (by simp)
    have hmax : max lastKey (key e) = key e := Nat.max_eq_right hle
    have ht : t.Pairwise (fun a b => key a ≤ key b) := hp.of_cons
    have hhead : ∀ x ∈ t, key e ≤ key x := fun x hx => List.rel_of_pairwise_cons hp hx
    have hadv : starAdvance edges.length lastKey (key e) ptrs
        = ptrs ++ List.replicate (key e - lastKey) edges.length := pushN_eq _ _ _
    have hlen' : (ptrs ++ List.replicate (key e - lastKey) edges.length).length
        = key e + 1 := by
      simp [List.length_append, hlen]
      omega
    have hsf : starFold key val (e :: t) lastKey ptrs edges
        = starFold key val t (key e)
            (ptrs ++ List.replicate (key e - lastKey) edges.length) (edges ++ [val e]) := by
      show starFold key val t (max lastKey (key e))
          (starAdvance edges.length lastKey (key e) ptrs) (edges ++ [val e]) = _
      rw [hmax, hadv]
    obtain ⟨ih1, ih2, ih3, ih4⟩ := ih (key e)
      (ptrs ++ List.replicate (key e - lastKey) edges.length) (edges ++ [val e])
      ht hhead hlen'
    have hceil : keyCeil key (e :: t) lastKey = keyCeil key t (key e) := by
      show keyCeil key t (max lastKey (key e)) = keyCeil key t (key e)
      rw [hmax]
    refine ⟨?_, ?_, ?_, ?_⟩
    · rw [hsf, ih1]
      simp
    · rw [hsf, ih2, hceil]
    · intro j hj
      rw [hsf, ih3 j (by omega)]
      exact List.getElem?_append_left (by omega)
    · intro j hj1 hj2
      rw [hceil] at hj2
      by_cases hje : j ≤ key e
      · rw [hsf, ih3 j hje]
        rw [List.getElem?_append_right (by omega)]
        have hidx : j - ptrs.length < key e - lastKey := by omega
        rw [List.getElem?_replicate]
        rw [if_pos hidx]
        have hcnt : (e :: t).countP (fun x => decide (key x < j)) = 0 := by
          rw [List.countP_eq_zero]
          intro a ha
          rcases List.mem_cons.mp ha with rfl | ha
          · simp; omega
          · have := hhead a ha
            simp
            omega
        rw [hcnt]
        simp
      · have hje' : key e < j := by omega
        rw [hsf, ih4 j hje' hj2]
        have hcnt : (e :: t).countP (fun x => decide (key x < j))
            = t.countP (fun x => decide (key x < j)) + 1 :=
          List.countP_cons_of_pos _ _ (by simp; omega)
        rw [hcnt]
        simp [List.length_append]
        omega

theorem buildStar_eq (key val : Edge → Nat) (V : Nat) (S : List Edge) :
    buildStar key val V S
      = ⟨starPad (V + 2)
            (starFold key val (List.insertionSort (le_star key val) S) 0 [0] [0]).2.length
            (starFold key val (List.insertionSort (le_star key val) S) 0 [0] [0]).1,
          (starFold key val (List.insertionSort (le_star key val) S) 0 [0] [0]).2⟩ := rfl

theorem buildStar_char (key val : Edge → Nat) (V : Nat) (S : List Edge)
    (hwf : ∀ e ∈ S, 1 ≤ key e ∧ key e ≤ V) :
    (buildStar key val V S).edges = 0 :: (List.insertionSort (le_star key val) S).map val
    ∧ (buildStar key val V S).ptrs.length = V + 2
    ∧ (buildStar key val V S).ptrs[0]? = some 0
    ∧ ∀ j, 1 ≤ j → j ≤ V + 1 →
        (buildStar key val V S).ptrs[j]?
          = some (1 + (List.insertionSort (le_star key val) S).countP
              (fun e => decide (key e < j))) := by
  set l := List.insertionSort (le_star key val) S with hl
  have hmem : ∀ e ∈ l, 1 ≤ key e ∧ key e ≤ V := by
    intro e he
    exact hwf e ((List.perm_insertionSort (le_star key val) S).mem_iff.mp he)
  obtain ⟨h1, h2, h3, h4⟩ := starFold_char key val l 0 [0] [0]
    (insertionSort_key_pairwise key val S) (fun e _ => Nat.zero_le _) rfl
  have hceilV : keyCeil key l 0 ≤ V := by
    rcases Nat.eq_zero_or_pos V with hV | hV
    · exact keyCeil_le key l 0 V (by omega) (fun e he => (hmem e he).2)
    · exact keyCeil_le key l 0 V (by omega) (fun e he => (hmem e he).2)
  have hpad : starPad (V + 2) (starFold key val l 0 [0] [0]).2.length
        (starFold key val l 0 [0] [0]).1
      = (starFold key val l 0 [0] [0]).1
        ++ List.replicate ((V + 2) - (starFold key val l 0 [0] [0]).1.length)
            (starFold key val l 0 [0] [0]).2.length := pushN_eq _ _ _
  have helen : (starFold key val l 0 [0] [0]).2.length = 1 + l.length := by
    rw [h1]
    simp
    omega
  constructor
  · rw [buildStar_eq, h1]
    simp
  refine ⟨?_, ?_, ?_⟩
  · rw [buildStar_eq]
    simp only [hpad, List.length_append, List.length_replicate, h2]
    omega
  · rw [buildStar_eq]
    simp only [hpad]
    rw [List.getElem?_append_left (by omega)]
    rw [h3 0 (by omega)]
    rfl
  · intro j hj1 hj2
    rw [buildStar_eq]
    simp only [hpad]
    by_cases hjc : j ≤ keyCeil key l 0
    · rw [List.getElem?_append_left (by omega)]
      rw [h4 j (by omega) hjc]
      rfl
    · rw [List.getElem?_append_right (by omega)]
      rw [List.getElem?_replicate, if_pos (by omega), helen]
      have hcnt : l.countP (fun e => decide (key e < j)) = l.length := by
        rw [List.countP_eq_length]
        intro a ha
        have := keyCeil_ge_mem key l 0 a ha
        simp
        omega
      rw [hcnt]

theorem successors_buildStar (key val : Edge → Nat) (V : Nat) (S : List Edge)
    (hwf : ∀ e ∈ S, 1 ≤ key e ∧ key e ≤ V) (v : Nat) (hv1 : 1 ≤ v) (hvV : v ≤ V) :
    successors (buildStar key val V S) v
      = some (((List.insertionSort (le_star key val) S).filter
          (fun e => decide (key e = v))).map val) := by
  set l := List.insertionSort (le_star key val) S with hldef
  set A := l.filter (fun e => decide (key e < v)) with hA
  set B := l.filter (fun e => decide (key e = v)) with hB
  set C := l.filter (fun e => decide (v < key e)) with hC
  obtain ⟨hE, hlen, h0, hj⟩ := buildStar_char key val V S hwf
  have hdec : l = A ++ B ++ C := pairwise_key_decomp key v l (insertionSort_key_pairwise key val S)
  have hmem : ∀ e ∈ l, 1 ≤ key e ∧ key e ≤ V := by
    intro e he
    exact hwf e ((List.perm_insertionSort (le_star key val) S).mem_iff.mp he)
  have ha : l.countP (fun e => decide (key e < v)) = A.length := by
    rw [hA, List.countP_eq_length_filter]
  have hb : l.countP (fun e => decide (key e < v + 1)) = A.length + B.length := by
    conv_lhs => rw [hdec]
    rw [List.countP_append, List.countP_append]
    have hcA : A.countP (fun e => decide (key e < v + 1)) = A.length := by
      rw [List.countP_eq_length]
      intro e he
      have := List.of_mem_filter (p := fun e => decide (key e < v)) he
      simp at this ⊢
      omega
    have hcB : B.countP (fun e => decide (key e < v + 1)) = B.length := by
      rw [List.countP_eq_length]
      intro e he
      have := List.of_mem_filter (p := fun e => decide (key e = v)) he
      simp at this ⊢
      omega
    have hcC : C.countP (fun e => decide (key e < v + 1)) = 0 := by
      rw [List.countP_eq_zero]
      intro e he
      have := List.of_mem_filter (p := fun e => decide (v < key e)) he
      simp at this ⊢
      omega
    rw [hcA, hcB, hcC]
    omega
  have hav := hj v hv1 (by omega)
  have hbv := hj (v + 1) (by omega) (by omega)
  unfold successors
  rw [hav, hbv]
  dsimp only
  rw [hE, ha, hb]
  rw [show 1 + A.length = A.length + 1 from Nat.add_comm _ _,
    show 1 + (A.length + B.length) = (A.length + B.length) + 1 from Nat.add_comm _ _]
  rw [List.take_succ_cons, List.drop_succ_cons]
  have hXdec : l.map val = A.map val ++ B.map val ++ C.map val := by
    rw [hdec]
    simp
  rw [hXdec, List.append_assoc]
  rw [List.take_append_eq_append_take]
  rw [List.take_of_length_le (by simp)]
  rw [show A.length + B.length - (A.map val).length = B.length by simp]
  rw [List.take_append_eq_append_take]
  rw [List.take_of_length_le (by simp)]
  rw [show B.length - (B.map val).length = 0 by simp, List.take_zero, List.append_nil]
  rw [List.drop_left' (by simp)]

theorem filter_key_le_succ (key : Edge → Nat) (l : List Edge)
    (hp : l.Pairwise (fun a b => key a ≤ key b)) (n : Nat) :
    l.filter (fun e => decide (key e < n + 1)) ++ l.filter (fun e => decide (key e = n + 1))
      = l.filter (fun e => decide (key e < n + 2)) := by
  have hdec := pairwise_key_decomp key (n + 1) l hp
  set A := l.filter (fun e => decide (key e < n + 1)) with hA
  set B := l.filter (fun e => decide (key e = n + 1)) with hB
  set C := l.filter (fun e => decide (n + 1 < key e)) with hC
  conv_rhs => rw [hdec]
  rw [List.filter_append, List.filter_append]
  have hfA : A.filter (fun e => decide (key e < n + 2)) = A :=
    List.filter_eq_self.mpr (fun a ha => by
      have := List.of_mem_filter (p := fun e => decide (key e < n + 1)) ha
      simp at this ⊢
      omega)
  have hfB : B.filter (fun e => decide (key e < n + 2)) = B :=
    List.filter_eq_self.mpr (fun a ha => by
      have := List.of_mem_filter (p := fun e => decide (key e = n + 1)) ha
      simp at this ⊢
      omega)
  have hfC : C.filter (fun e => decide (key e < n + 2)) = [] :=
    List.filter_eq_nil_iff.mpr (fun a ha => by
      have := List.of_mem_filter (p := fun e => decide (n + 1 < key e)) ha
      simp at this ⊢
      omega)
  rw [hfA, hfB, hfC, List.append_nil]

theorem range_flatMap_filter (key : Edge → Nat) (l : List Edge)
    (hp : l.Pairwise (fun a b => key a ≤ key b)) (hlo : ∀ e ∈ l, 1 ≤ key e) :
    ∀ n, (List.range' 1 n).flatMap (fun v => l.filter (fun e => decide (key e = v)))
      = l.filter (fun e => decide (key e < n + 1)) := by
  intro n
  induction n with
  | zero =>
    simp only [List.range'_zero, List.flatMap_nil]
    symm
    rw [List.filter_eq_nil_iff]
    intro a ha
    have := hlo a ha
    simp
    omega
  | succ m ih =>
    rw [List.range'_1_concat, List.flatMap_append, ih, List.flatMap_singleton]
    rw [show 1 + m = m + 1 from Nat.add_comm 1 m]
    exact filter_key_le_succ key l hp m

theorem buildStar_flatten (key val : Edge → Nat) (V : Nat) (S : List Edge)
    (hwf : ∀ e ∈ S, 1 ≤ key e ∧ key e ≤ V) :
    List.Perm
      ((List.range' 1 V).flatMap (fun v =>
        ((successors (buildStar key val V S) v).getD []).map (fun d => (v, d))))
      (S.map (fun e => (key e, val e))) := by
  set l := List.insertionSort (le_star key val) S with hldef
  have hp := insertionSort_key_pairwise key val S
  have hmem : ∀ e ∈ l, 1 ≤ key e ∧ key e ≤ V := by
    intro e he
    exact hwf e ((List.perm_insertionSort (le_star key val) S).mem_iff.mp he)
  have hbody : ∀ v ∈ List.range' 1 V,
      ((successors (buildStar key val V S) v).getD []).map (fun d => (v, d))
        = (l.filter (fun e => decide (key e = v))).map (fun e => (key e, val e)) := by
    intro v hv
    obtain ⟨i, hiV, hieq⟩ := List.mem_range'.mp hv
    have hv1 : 1 ≤ v := by omega
    have hvV : v ≤ V := by omega
    rw [successors_buildStar key val V S hwf v hv1 hvV]
    simp only [Option.getD_some, List.map_map]
    apply List.map_congr_left
    intro e he
    have := List.of_mem_filter (p := fun e => decide (key e = v)) he
    simp at this
    simp [this]
  have hflat : (List.range' 1 V).flatMap (fun v =>
        ((successors (buildStar key val V S) v).getD []).map (fun d => (v, d)))
      = (List.range' 1 V).flatMap (fun v =>
        (l.filter (fun e => decide (key e = v))).map (fun e => (key e, val e))) := by
    rw [List.flatMap_def, List.flatMap_def, List.map_congr_left hbody]
  rw [hflat, ← List.map_flatMap,
    range_flatMap_filter key l hp (fun e he => (hmem e he).1) V]
  have hfull : l.filter (fun e => decide (key e < V + 1)) = l :=
    List.filter_eq_self.mpr (fun a ha => by
      have := hmem a ha
      simp
      omega)
  rw [hfull]
  exact (List.perm_insertionSort (le_star key val) S).map _

theorem predecessors_eq_successors (g : StarRep) (v : Nat) :
    predecessors g v = successors g v := rfl

theorem vertexes_buildStar (key val : Edge → Nat) (V : Nat) (S : List Edge)
    (hwf : ∀ e ∈ S, 1 ≤ key e ∧ key e ≤ V) :
    vertexes (buildStar key val V S) = List.range' 1 V := by
  unfold vertexes
  rw [(buildStar_char key val V S hwf).2.1]
  simp

/-- C6: round-trip on construction.  For every vertex count V and edge
collection S with all endpoints in [1, V]: collecting, over every
vertex v of the ForwardStarDigraph built from (V, S), the pairs (v, d)
for d in successors(v) reproduces S exactly as a multiset of
(origin, destination) pairs; symmetrically, collecting the pairs (o, v)
for o in predecessors(v) of the ReverseStarDigraph reproduces the same
multiset. -/
theorem star_representation_round_trip (V : Nat) (S : List Edge)
    (hwf : ∀ e ∈ S, (1 ≤ e.orig ∧ e.orig ≤ V) ∧ (1 ≤ e.dest ∧ e.dest ≤ V)) :
    List.Perm
      ((vertexes (ForwardStarDigraph V S)).flatMap (fun v =>
        ((successors (ForwardStarDigraph V S) v).getD []).map (fun d => (v, d))))
      (S.map (fun e => (e.orig, e.dest)))
    ∧ List.Perm
      ((vertexes (ReverseStarDigraph V S)).flatMap (fun v =>
        ((predecessors (ReverseStarDigraph V S) v).getD []).map (fun o => (o, v))))
      (S.map (fun e => (e.orig, e.dest))) := by
  constructor
  · rw [show ForwardStarDigraph V S = buildStar (fun e => e.orig) (fun e => e.dest) V S from rfl,
      vertexes_buildStar _ _ V S (fun e he => (hwf e he).1)]
    exact buildStar_flatten _ _ V S (fun e he => (hwf e he).1)
  · rw [show ReverseStarDigraph V S = buildStar (fun e => e.dest) (fun e => e.orig) V S from rfl,
      vertexes_buildStar _ _ V S (fun e he => (hwf e he).2)]
    have hbase := buildStar_flatten (fun e => e.dest) (fun e => e.orig) V S
      (fun e he => (hwf e he).2)
    have hswap := hbase.map Prod.swap
    have hL : (((List.range' 1 V).flatMap (fun v =>
          List.map (fun d => (v, d))
            ((successors (buildStar (fun e => e.dest) (fun e => e.orig) V S) v).getD []))).map
          Prod.swap)
        = ((List.range' 1 V).flatMap (fun v =>
          List.map (fun o => (o, v))
            ((predecessors (buildStar (fun e => e.dest) (fun e => e.orig) V S) v).getD []))) := by
      rw [List.map_flatMap]
      refine congrArg _ (funext fun v => ?_)
      rw [List.map_map]
      rfl
    have hR : ((S.map (fun e => (e.dest, e.orig))).map Prod.swap)
        = S.map (fun e => (e.orig, e.dest)) := by
      rw [List.map_map]
      rfl
    rw [hL, hR] at hswap
    exact hswap

/-- Witness for C6 at a concrete input: V = 2 and the edge bag
(1,2), (2,1), (1,2), which contains a duplicate edge. -/
theorem star_representation_round_trip_witness :
    List.Perm
      ((vertexes (ForwardStarDigraph 2 [⟨1, 2⟩, ⟨2, 1⟩, ⟨1, 2⟩])).flatMap (fun v =>
        List.map (fun d => (v, d))
          ((successors (ForwardStarDigraph 2 [⟨1, 2⟩, ⟨2, 1⟩, ⟨1, 2⟩]) v).getD [])))
      (List.map (fun e => (e.orig, e.dest)) ([⟨1, 2⟩, ⟨2, 1⟩, ⟨1, 2⟩] : List Edge))
    ∧ List.Perm
      ((vertexes (ReverseStarDigraph 2 [⟨1, 2⟩, ⟨2, 1⟩, ⟨1, 2⟩])).flatMap (fun v =>
        List.map (fun o => (o, v))
          ((predecessors (ReverseStarDigraph 2 [⟨1, 2⟩, ⟨2, 1⟩, ⟨1, 2⟩]) v).getD [])))
      (List.map (fun e => (e.orig, e.dest)) ([⟨1, 2⟩, ⟨2, 1⟩, ⟨1, 2⟩] : List Edge)) :=
  star_representation_round_trip 2 [⟨1, 2⟩, ⟨2, 1⟩, ⟨1, 2⟩] (by decide)

theorem successors_buildStar_oob (key val : Edge → Nat) (V : Nat) (S : List Edge)
    (hwf : ∀ e ∈ S, 1 ≤ key e ∧ key e ≤ V) (v : Nat) (hv : V < v) :
    successors (buildStar key val V S) v = none := by
  have h2 : (buildStar key val V S).ptrs[v + 1]? = none := by
    rw [List.getElem?_eq_none]
    rw [(buildStar_char key val V S hwf).2.1]
    omega
  unfold successors
  rw [h2]
  cases (buildStar key val V S).ptrs[v]? <;> rfl

theorem successors_buildStar_zero (key val : Edge → Nat) (V : Nat) (S : List Edge)
    (hwf : ∀ e ∈ S, 1 ≤ key e ∧ key e ≤ V) :
    successors (buildStar key val V S) 0 = some [0] := by
  obtain ⟨hE, hlen, h0, hj⟩ := buildStar_char key val V S hwf
  have hcnt : (List.insertionSort (le_star key val) S).countP (fun e => decide (key e < 1))
      = 0 := by
    rw [List.countP_eq_zero]
    intro a ha
    have := hwf a ((List.perm_insertionSort (le_star key val) S).mem_iff.mp ha)
    simp
    omega
  have h1 := hj 1 (le_refl 1) (by omega)
  rw [hcnt] at h1
  unfold successors
  rw [h0, h1, hE]
  rfl

/-- C9 amended: for every star graph built with vertex count V from
edges with endpoints in [1, V]: a successors/predecessors query with v
in [1, V] returns a valid (possibly empty) range without error; a query
with v > V raises the index-out-of-range error of ptrs.at(v + 1); but a
query with v = 0 neither errors nor returns an empty range — it returns
the one-element range holding the unused sentinel entry 0 of the
neighbor array, a spurious neighbor. -/
theorem successors_predecessors_range_queries (V : Nat) (S : List Edge)
    (hwf : ∀ e ∈ S, (1 ≤ e.orig ∧ e.orig ≤ V) ∧ (1 ≤ e.dest ∧ e.dest ≤ V)) :
    (∀ v, 1 ≤ v → v ≤ V →
        (∃ ns, successors (ForwardStarDigraph V S) v = some ns)
        ∧ (∃ ns, predecessors (ReverseStarDigraph V S) v = some ns))
    ∧ (∀ v, V < v → successors (ForwardStarDigraph V S) v = none
        ∧ predecessors (ReverseStarDigraph V S) v = none)
    ∧ successors (ForwardStarDigraph V S) 0 = some [0]
    ∧ predecessors (ReverseStarDigraph V S) 0 = some [0] := by
  refine ⟨fun v hv1 hvV => ⟨⟨_, successors_buildStar _ _ V S (fun e he => (hwf e he).1) v hv1 hvV⟩,
      ⟨_, successors_buildStar _ _ V S (fun e he => (hwf e he).2) v hv1 hvV⟩⟩,
    fun v hv => ⟨successors_buildStar_oob _ _ V S (fun e he => (hwf e he).1) v hv,
      successors_buildStar_oob _ _ V S (fun e he => (hwf e he).2) v hv⟩,
    successors_buildStar_zero _ _ V S (fun e he => (hwf e he).1),
    successors_buildStar_zero _ _ V S (fun e he => (hwf e he).2)⟩

/-- Witness for C9 amended at V = 2 with edges (1,2), (2,1), (1,2). -/
theorem successors_predecessors_range_queries_witness :
    (∀ v, 1 ≤ v → v ≤ 2 →
        (∃ ns, successors (ForwardStarDigraph 2 [⟨1, 2⟩, ⟨2, 1⟩, ⟨1, 2⟩]) v = some ns)
        ∧ (∃ ns, predecessors (ReverseStarDigraph 2 [⟨1, 2⟩, ⟨2, 1⟩, ⟨1, 2⟩]) v = some ns))
    ∧ (∀ v, 2 < v → successors (ForwardStarDigraph 2 [⟨1, 2⟩, ⟨2, 1⟩, ⟨1, 2⟩]) v = none
        ∧ predecessors (ReverseStarDigraph 2 [⟨1, 2⟩, ⟨2, 1⟩, ⟨1, 2⟩]) v = none)
    ∧ successors (ForwardStarDigraph 2 [⟨1, 2⟩, ⟨2, 1⟩, ⟨1, 2⟩]) 0 = some [0]
    ∧ predecessors (ReverseStarDigraph 2 [⟨1, 2⟩, ⟨2, 1⟩, ⟨1, 2⟩]) 0 = some [0] :=
  successors_predecessors_range_queries 2 [⟨1, 2⟩, ⟨2, 1⟩, ⟨1, 2⟩] (by decide)

theorem max_degree_scan_append (degOf : Nat → Option Nat) (L1 L2 : List Nat)
    (acc : vertex_degree) :
    max_degree_scan degOf (L1 ++ L2) acc
      = match max_degree_scan degOf L1 acc with
        | none => none
        | some r => max_degree_scan degOf L2 r := by
  induction L1 generalizing acc with
  | nil => rfl
  | cons x t ih =>
    simp only [List.cons_append, max_degree_scan]
    cases hdx : degOf x with
    | none => rfl
    | some dx =>
      dsimp only
      exact ih (if dx > acc.degree then ⟨x, dx⟩ else acc)

theorem max_degree_scan_spec (d : Nat → Nat) (degOf : Nat → Option Nat) :
    ∀ n : Nat, (∀ v, 1 ≤ v → v ≤ n → degOf v = some (d v)) →
    ∃ r, max_degree_scan degOf (List.range' 1 n) ⟨0, 0⟩ = some r
      ∧ (∀ v, 1 ≤ v → v ≤ n → d v ≤ r.degree)
      ∧ (r.degree = 0 → r.vertex = 0)
      ∧ (0 < r.degree → 1 ≤ r.vertex ∧ r.vertex ≤ n ∧ d r.vertex = r.degree
          ∧ ∀ u, 1 ≤ u → u < r.vertex → d u < r.degree) := by
  intro n
  induction n with
  | zero =>
    intro _
    exact ⟨⟨0, 0⟩, rfl, fun v h1 h2 => by omega, fun _ => rfl, fun h => by simp at h⟩
  | succ m ih =>
    intro hdeg
    obtain ⟨r, hr, hmax, hzero, hpos⟩ := ih (fun v h1 h2 => hdeg v h1 (by omega))
    have hdm : degOf (1 + m) = some (d (1 + m)) := hdeg (1 + m) (by omega) (by omega)
    have hstep : max_degree_scan degOf (List.range' 1 (m + 1)) ⟨0, 0⟩
        = some (if d (1 + m) > r.degree then ⟨1 + m, d (1 + m)⟩ else r) := by
      rw [List.range'_1_concat, max_degree_scan_append, hr]
      unfold max_degree_scan
      rw [hdm]
      rfl
    by_cases hgt : d (1 + m) > r.degree
    · refine ⟨⟨1 + m, d (1 + m)⟩, by rw [hstep, if_pos hgt], ?_, ?_, ?_⟩
      · intro v h1 h2
        show d v ≤ d (1 + m)
        rcases Nat.lt_or_ge v (m + 1) with h | h
        · have := hmax v h1 (by omega)
          omega
        · have hveq : v = 1 + m := by omega
          rw [hveq]
      · intro h
        exact absurd h (by show ¬ d (1 + m) = 0; omega)
      · intro _
        refine ⟨by show 1 ≤ 1 + m; omega, by show 1 + m ≤ m + 1; omega, rfl, ?_⟩
        intro u h1 h2
        show d u < d (1 + m)
        have h2' : u < 1 + m := h2
        have := hmax u h1 (by omega)
        omega
    · refine ⟨r, by rw [hstep, if_neg hgt], ?_, hzero, ?_⟩
      · intro v h1 h2
        rcases Nat.lt_or_ge v (m + 1) with h | h
        · exact hmax v h1 (by omega)
        · have hveq : v = 1 + m := by omega
          rw [hveq]
          omega
      · intro h
        obtain ⟨ha, hb, hc, hd'⟩ := hpos h
        exact ⟨ha, by omega, hc, hd'⟩

theorem successors_length_buildStar (key val : Edge → Nat) (V : Nat) (S : List Edge)
    (hwf : ∀ e ∈ S, 1 ≤ key e ∧ key e ≤ V) (v : Nat) (hv1 : 1 ≤ v) (hvV : v ≤ V) :
    (successors (buildStar key val V S) v).map List.length
      = some (S.countP (fun e => decide (key e = v))) := by
  rw [successors_buildStar key val V S hwf v hv1 hvV]
  simp only [Option.map_some', List.length_map]
  rw [← List.countP_eq_length_filter]
  exact congrArg some ((List.perm_insertionSort (le_star key val) S).countP_eq _)

/-- C7 amended: for every graph built from edges with endpoints in
[1, V], max_outdegree (resp. max_indegree) returns the maximum
out-degree (in-degree) over all vertices and, whenever that maximum is
positive, pairs it with the lowest-id vertex achieving it; when the
maximum degree is 0 (for example on a graph with no edges) the strict
greater-than scan never replaces its initial accumulator and the result
is degree 0 paired with vertex 0, not vertex 1. -/
theorem max_degree_first_argmax (V : Nat) (S : List Edge)
    (hwf : ∀ e ∈ S, (1 ≤ e.orig ∧ e.orig ≤ V) ∧ (1 ≤ e.dest ∧ e.dest ≤ V)) :
    (∃ r, max_outdegree (ForwardStarDigraph V S) = some r
      ∧ (∀ v, 1 ≤ v → v ≤ V → S.countP (fun e => decide (e.orig = v)) ≤ r.degree)
      ∧ (r.degree = 0 → r.vertex = 0)
      ∧ (0 < r.degree → 1 ≤ r.vertex ∧ r.vertex ≤ V
          ∧ S.countP (fun e => decide (e.orig = r.vertex)) = r.degree
          ∧ ∀ u, 1 ≤ u → u < r.vertex → S.countP (fun e => decide (e.orig = u)) < r.degree))
    ∧ (∃ r, max_indegree (ReverseStarDigraph V S) = some r
      ∧ (∀ v, 1 ≤ v → v ≤ V → S.countP (fun e => decide (e.dest = v)) ≤ r.degree)
      ∧ (r.degree = 0 → r.vertex = 0)
      ∧ (0 < r.degree → 1 ≤ r.vertex ∧ r.vertex ≤ V
          ∧ S.countP (fun e => decide (e.dest = r.vertex)) = r.degree
          ∧ ∀ u, 1 ≤ u → u < r.vertex → S.countP (fun e => decide (e.dest = u)) < r.degree)) := by
  constructor
  · have hdeg : ∀ v, 1 ≤ v → v ≤ V → outdegree (ForwardStarDigraph V S) v
        = some (S.countP (fun e => decide (e.orig = v))) :=
      fun v hv1 hvV => successors_length_buildStar (fun e => e.orig) (fun e => e.dest)
        V S (fun e he => (hwf e he).1) v hv1 hvV
    obtain ⟨r, hr, h1, h2, h3⟩ := max_degree_scan_spec
      (fun v => S.countP (fun e => decide (e.orig = v)))
      (outdegree (ForwardStarDigraph V S)) V hdeg
    refine ⟨r, ?_, h1, h2, h3⟩
    show max_degree_scan (outdegree (ForwardStarDigraph V S))
      (vertexes (ForwardStarDigraph V S)) ⟨0, 0⟩ = some r
    rw [show ForwardStarDigraph V S = buildStar (fun e => e.orig) (fun e => e.dest) V S from rfl,
      vertexes_buildStar _ _ V S (fun e he => (hwf e he).1)]
    exact hr
  · have hdeg : ∀ v, 1 ≤ v → v ≤ V → indegree (ReverseStarDigraph V S) v
        = some (S.countP (fun e => decide (e.dest = v))) :=
      fun v hv1 hvV => successors_length_buildStar (fun e => e.dest) (fun e => e.orig)
        V S (fun e he => (hwf e he).2) v hv1 hvV
    obtain ⟨r, hr, h1, h2, h3⟩ := max_degree_scan_spec
      (fun v => S.countP (fun e => decide (e.dest = v)))
      (indegree (ReverseStarDigraph V S)) V hdeg
    refine ⟨r, ?_, h1, h2, h3⟩
    show max_degree_scan (indegree (ReverseStarDigraph V S))
      (vertexes (ReverseStarDigraph V S)) ⟨0, 0⟩ = some r
    rw [show ReverseStarDigraph V S = buildStar (fun e => e.dest) (fun e => e.orig) V S from rfl,
      vertexes_buildStar _ _ V S (fun e he => (hwf e he).2)]
    exact hr

/-- Witness for C7 amended at V = 2 with edges (1,2), (2,1), (1,2):
vertex 1 has out-degree 2 (the duplicate edge counts twice). -/
theorem max_degree_first_argmax_witness :
    (∃ r, max_outdegree (ForwardStarDigraph 2 [⟨1, 2⟩, ⟨2, 1⟩, ⟨1, 2⟩]) = some r
      ∧ (∀ v, 1 ≤ v → v ≤ 2 →
          List.countP (fun e => decide (e.orig = v)) ([⟨1, 2⟩, ⟨2, 1⟩, ⟨1, 2⟩] : List Edge) ≤ r.degree)
      ∧ (r.degree = 0 → r.vertex = 0)
      ∧ (0 < r.degree → 1 ≤ r.vertex ∧ r.vertex ≤ 2
          ∧ List.countP (fun e => decide (e.orig = r.vertex)) ([⟨1, 2⟩, ⟨2, 1⟩, ⟨1, 2⟩] : List Edge) = r.degree
          ∧ ∀ u, 1 ≤ u → u < r.vertex →
              List.countP (fun e => decide (e.orig = u)) ([⟨1, 2⟩, ⟨2, 1⟩, ⟨1, 2⟩] : List Edge) < r.degree))
    ∧ (∃ r, max_indegree (ReverseStarDigraph 2 [⟨1, 2⟩, ⟨2, 1⟩, ⟨1, 2⟩]) = some r
      ∧ (∀ v, 1 ≤ v → v ≤ 2 →
          List.countP (fun e => decide (e.dest = v)) ([⟨1, 2⟩, ⟨2, 1⟩, ⟨1, 2⟩] : List Edge) ≤ r.degree)
      ∧ (r.degree = 0 → r.vertex = 0)
      ∧ (0 < r.degree → 1 ≤ r.vertex ∧ r.vertex ≤ 2
          ∧ List.countP (fun e => decide (e.dest = r.vertex)) ([⟨1, 2⟩, ⟨2, 1⟩, ⟨1, 2⟩] : List Edge) = r.degree
          ∧ ∀ u, 1 ≤ u → u < r.vertex →
              List.countP (fun e => decide (e.dest = u)) ([⟨1, 2⟩, ⟨2, 1⟩, ⟨1, 2⟩] : List Edge) < r.degree)) :=
  max_degree_first_argmax 2 [⟨1, 2⟩, ⟨2, 1⟩, ⟨1, 2⟩] (by decide)

theorem at_v_mem {res : List dfs_entry} {u : Nat} {e : dfs_entry}
    (h : at_v res u = some e) : e ∈ res := by
  obtain ⟨-, hlt, hget⟩ := at_v_some_bounds h
  exact List.mem_iff_getElem?.mpr ⟨u - 1, hget⟩

theorem at_v_exists {res : List dfs_entry} {u : Nat} (h1 : 1 ≤ u) (h2 : u ≤ res.length) :
    ∃ e, at_v res u = some e := by
  unfold at_v
  rw [if_pos h1]
  exact ⟨res[u - 1], List.getElem?_eq_getElem (by omega)⟩

theorem entry_index {res : List dfs_entry} {e : dfs_entry} (h : e ∈ res) :
    ∃ u, 1 ≤ u ∧ u ≤ res.length ∧ at_v res u = some e := by
  obtain ⟨n, hget⟩ := List.mem_iff_getElem?.mp h
  have hn : n < res.length := (List.getElem?_eq_some_iff.mp hget).1
  refine ⟨n + 1, by omega, by omega, ?_⟩
  unfold at_v
  rw [if_pos (by omega)]
  simpa using hget

theorem discAt_eq {res : List dfs_entry} {u : Nat} {e : dfs_entry}
    (h : at_v res u = some e) : discAt res u = e.discovery_t := by
  unfold discAt
  rw [h]
  rfl

theorem termAt_eq {res : List dfs_entry} {u : Nat} {e : dfs_entry}
    (h : at_v res u = some e) : termAt res u = e.term_t := by
  unfold termAt
  rw [h]
  rfl

theorem parentAt_eq {res : List dfs_entry} {u : Nat} {e : dfs_entry}
    (h : at_v res u = some e) : parentAt res u = e.parent := by
  unfold parentAt
  rw [h]
  rfl

theorem discAt_updAt_ne (res : List dfs_entry) (v : Nat) (f : dfs_entry → dfs_entry)
    (u : Nat) (h : u ≠ v) : discAt (updAt res v f) u = discAt res u := by
  unfold discAt
  rw [at_v_updAt, if_neg h]

theorem termAt_updAt_ne (res : List dfs_entry) (v : Nat) (f : dfs_entry → dfs_entry)
    (u : Nat) (h : u ≠ v) : termAt (updAt res v f) u = termAt res u := by
  unfold termAt
  rw [at_v_updAt, if_neg h]

theorem parentAt_updAt_ne (res : List dfs_entry) (v : Nat) (f : dfs_entry → dfs_entry)
    (u : Nat) (h : u ≠ v) : parentAt (updAt res v f) u = parentAt res u := by
  unfold parentAt
  rw [at_v_updAt, if_neg h]

theorem two_le_countP_of_indices (p : dfs_entry → Bool) {res : List dfs_entry} {i j : Nat}
    (hij : i < j) (hj : j < res.length) (hpi : p (res.get ⟨i, by omega⟩))
    (hpj : p (res.get ⟨j, hj⟩)) : 2 ≤ res.countP p := by
  have hsplit : res.countP p
      = (res.take (i + 1)).countP p + (res.drop (i + 1)).countP p := by
    conv_lhs => rw [← List.take_append_drop (i + 1) res]
    rw [List.countP_append]
  have hlen_take : i < (res.take (i + 1)).length := by
    rw [List.length_take]
    omega
  have h1 : 1 ≤ (res.take (i + 1)).countP p := by
    rw [Nat.one_le_iff_ne_zero, ← Nat.pos_iff_ne_zero, List.countP_pos_iff]
    refine ⟨(res.take (i + 1)).get ⟨i, hlen_take⟩, List.getElem_mem hlen_take, ?_⟩
    simp only [List.get_eq_getElem]
    rw [List.getElem_take]
    exact hpi
  have h2 : 1 ≤ (res.drop (i + 1)).countP p := by
    rw [Nat.one_le_iff_ne_zero, ← Nat.pos_iff_ne_zero, List.countP_pos_iff]
    refine ⟨res.get ⟨j, hj⟩, ?_, hpj⟩
    rw [List.mem_iff_getElem?]
    refine ⟨j - (i + 1), ?_⟩
    rw [List.getElem?_drop]
    rw [show i + 1 + (j - (i + 1)) = j by omega]
    exact List.getElem?_eq_getElem hj
  omega

theorem two_le_countP (p : dfs_entry → Bool) {res : List dfs_entry} {u w : Nat}
    {eu ew : dfs_entry} (hu : at_v res u = some eu) (hw : at_v res w = some ew)
    (hne : u ≠ w) (hpu : p eu) (hpw : p ew) : 2 ≤ res.countP p := by
  obtain ⟨hu1, hulen, huget⟩ := at_v_some_bounds hu
  obtain ⟨hw1, hwlen, hwget⟩ := at_v_some_bounds hw
  have heu : res.get ⟨u - 1, hulen⟩ = eu := by
    have hh := List.getElem?_eq_getElem hulen
    rw [hh] at huget
    exact Option.some.inj huget
  have hew : res.get ⟨w - 1, hwlen⟩ = ew := by
    have hh := List.getElem?_eq_getElem hwlen
    rw [hh] at hwget
    exact Option.some.inj hwget
  rcases Nat.lt_or_ge (u - 1) (w - 1) with hlt | hge
  · exact two_le_countP_of_indices p hlt hwlen (by rw [heu]; exact hpu)
      (by rw [hew]; exact hpw)
  · have hlt : w - 1 < u - 1 := by omega
    exact two_le_countP_of_indices p hlt hulen (by rw [hew]; exact hpw)
      (by rw [heu]; exact hpu)

theorem scanSuccs_events (res : List dfs_entry) (vd v : Nat) :
    ∀ (l : List Nat) (evs : List DfsEvent) (r : Option Nat),
      scanSuccs res vd v l = some (evs, r) →
      ∀ ev ∈ evs, (∀ u, isVertexEv u ev = false) ∧ (∀ u, isTreeToEv u ev = false) := by
  intro l
  induction l with
  | nil =>
    intro evs r h ev hev
    unfold scanSuccs at h
    simp only [Option.some.injEq, Prod.mk.injEq] at h
    rw [← h.1] at hev
    simp at hev
  | cons x rest ih =>
    intro evs r h ev hev
    unfold scanSuccs at h
    cases hx : at_v res x with
    | none => rw [hx] at h; simp at h
    | some xe =>
      rw [hx] at h
      dsimp only at h
      by_cases hd : xe.discovery_t = 0
      · rw [if_pos hd] at h
        simp only [Option.some.injEq, Prod.mk.injEq] at h
        rw [← h.1] at hev
        simp at hev
      · rw [if_neg hd] at h
        rcases hr : scanSuccs res vd v rest with - | ⟨evs', r'⟩
        · rw [hr] at h; simp at h
        · rw [hr] at h
          simp only [Option.some.injEq, Prod.mk.injEq] at h
          rw [← h.1] at hev
          rcases List.mem_cons.mp hev with rfl | hev'
          · constructor
            · intro u
              by_cases ht : xe.term_t = 0
              · simp [ht, isVertexEv]
              · by_cases hlt : vd < xe.discovery_t <;> simp [ht, hlt, isVertexEv]
            · intro u
              by_cases ht : xe.term_t = 0
              · simp [ht, isTreeToEv]
              · by_cases hlt : vd < xe.discovery_t <;> simp [ht, hlt, isTreeToEv]
          · exact ih evs' r' (by rw [hr]) ev hev'

theorem discAt_updAt_self {res : List dfs_entry} {v : Nat} {e : dfs_entry}
    (h : at_v res v = some e) (f : dfs_entry → dfs_entry) :
    discAt (updAt res v f) v = (f e).discovery_t := by
  unfold discAt
  rw [at_v_updAt, if_pos rfl, h]
  rfl

theorem termAt_updAt_self {res : List dfs_entry} {v : Nat} {e : dfs_entry}
    (h : at_v res v = some e) (f : dfs_entry → dfs_entry) :
    termAt (updAt res v f) v = (f e).term_t := by
  unfold termAt
  rw [at_v_updAt, if_pos rfl, h]
  rfl

theorem parentAt_updAt_self {res : List dfs_entry} {v : Nat} {e : dfs_entry}
    (h : at_v res v = some e) (f : dfs_entry → dfs_entry) :
    parentAt (updAt res v f) v = (f e).parent := by
  unfold parentAt
  rw [at_v_updAt, if_pos rfl, h]
  rfl

theorem discAt_updAt_keep (res : List dfs_entry) (v : Nat) (f : dfs_entry → dfs_entry)
    (u : Nat) (hf : ∀ x, (f x).discovery_t = x.discovery_t) :
    discAt (updAt res v f) u = discAt res u := by
  unfold discAt
  rw [at_v_updAt]
  by_cases h : u = v
  · rw [if_pos h]
    cases at_v res u <;> simp [hf]
  · rw [if_neg h]

theorem termAt_updAt_keep (res : List dfs_entry) (v : Nat) (f : dfs_entry → dfs_entry)
    (u : Nat) (hf : ∀ x, (f x).term_t = x.term_t) :
    termAt (updAt res v f) u = termAt res u := by
  unfold termAt
  rw [at_v_updAt]
  by_cases h : u = v
  · rw [if_pos h]
    cases at_v res u <;> simp [hf]
  · rw [if_neg h]

theorem parentAt_updAt_keep (res : List dfs_entry) (v : Nat) (f : dfs_entry → dfs_entry)
    (u : Nat) (hf : ∀ x, (f x).parent = x.parent) :
    parentAt (updAt res v f) u = parentAt res u := by
  unfold parentAt
  rw [at_v_updAt]
  by_cases h : u = v
  · rw [if_pos h]
    cases at_v res u <;> simp [hf]
  · rw [if_neg h]

theorem countP_updAt {res : List dfs_entry} {v : Nat} {e : dfs_entry}
    (h : at_v res v = some e) (f : dfs_entry → dfs_entry) (p : dfs_entry → Bool) :
    (updAt res v f).countP p + (if p e then 1 else 0)
      = res.countP p + (if p (f e) then 1 else 0) := by
  have hupd : updAt res v f = res.set (v - 1) (f e) := by unfold updAt; rw [h]
  obtain ⟨hv1, hvlen, hvget⟩ := at_v_some_bounds h
  have hgi : res[v - 1] = e := by
    have h2 := List.getElem?_eq_getElem hvlen
    rw [h2] at hvget
    exact Option.some.inj hvget
  rw [hupd]
  have hb := countP_set_balance p res (v - 1) (f e) hvlen
  rw [hgi] at hb
  omega

theorem mem_updAt {res : List dfs_entry} {v : Nat} {e : dfs_entry}
    (h : at_v res v = some e) (f : dfs_entry → dfs_entry) :
    ∀ x ∈ updAt res v f, x ∈ res ∨ x = f e := by
  have hupd : updAt res v f = res.set (v - 1) (f e) := by unfold updAt; rw [h]
  rw [hupd]
  intro x hx
  exact List.mem_or_eq_of_mem_set hx

theorem updAt_updAt_same {res : List dfs_entry} {v : Nat} {e : dfs_entry}
    (h : at_v res v = some e) (f g : dfs_entry → dfs_entry) :
    updAt (updAt res v f) v g = updAt res v (fun x => g (f x)) := by
  have h1 : updAt res v f = res.set (v - 1) (f e) := by unfold updAt; rw [h]
  have h2 : at_v (updAt res v f) v = some (f e) := by
    rw [at_v_updAt, if_pos rfl, h]
    rfl
  have h3 : updAt (updAt res v f) v g = (updAt res v f).set (v - 1) (g (f e)) := by
    set mid := updAt res v f with hmid
    unfold updAt
    rw [h2]
  have h4 : updAt res v (fun x => g (f x)) = res.set (v - 1) (g (f e)) := by
    unfold updAt
    rw [h]
  rw [h3, h4, h1, List.set_set]

theorem discAt_replicate (L u : Nat) : discAt (List.replicate L ({} : dfs_entry)) u = 0 := by
  unfold discAt
  cases h : at_v (List.replicate L ({} : dfs_entry)) u with
  | none => rfl
  | some e =>
    have := List.eq_of_mem_replicate (at_v_mem h)
    rw [this]
    rfl

theorem parentAt_replicate (L u : Nat) :
    parentAt (List.replicate L ({} : dfs_entry)) u = 0 := by
  unfold parentAt
  cases h : at_v (List.replicate L ({} : dfs_entry)) u with
  | none => rfl
  | some e =>
    have := List.eq_of_mem_replicate (at_v_mem h)
    rw [this]
    rfl

theorem DfsInv_init (L : Nat) : DfsInv (List.replicate L {}) 0 [] [] := by
  refine ⟨?_, ?_, ?_, ?_, ?_, ?_, ?_, ?_, ?_, ?_⟩
  · intro e he
    rw [List.eq_of_mem_replicate he]
    exact ⟨le_refl 0, le_refl 0⟩
  · intro k h1 h2
    omega
  · intro e he
    rw [List.eq_of_mem_replicate he]
    intro h
    exact absurd rfl h
  · intro e he
    rw [List.eq_of_mem_replicate he]
    exact fun _ => ⟨rfl, rfl⟩
  · have h1 : (List.replicate L ({} : dfs_entry)).countP (fun e => e.discovery_t != 0) = 0 := by
      rw [List.countP_eq_zero]
      intro e he
      rw [List.eq_of_mem_replicate he]
      simp
    have h2 : (List.replicate L ({} : dfs_entry)).countP (fun e => e.term_t != 0) = 0 := by
      rw [List.countP_eq_zero]
      intro e he
      rw [List.eq_of_mem_replicate he]
      simp
    rw [h1, h2]
  · intro u hu
    simp at hu
  · exact List.nodup_nil
  · intro u h1 h2 h3 h4
    exact absurd (discAt_replicate L u) h3
  · intro u
    rw [discAt_replicate]
    simp
  · intro u
    rw [parentAt_replicate]
    simp

theorem DfsInv_events {res : List dfs_entry} {time : Nat} {stack : List Nat}
    {events : List DfsEvent} (hI : DfsInv res time stack events) (evs : List DfsEvent)
    (hevs : ∀ ev ∈ evs, (∀ u, isVertexEv u ev = false) ∧ (∀ u, isTreeToEv u ev = false)) :
    DfsInv res time stack (events ++ evs) := by
  refine ⟨hI.bounds, hI.times, hI.order, hI.fresh, hI.clock, hI.stk, hI.nodup,
    hI.open_on_stack, ?_, ?_⟩
  · intro u
    rw [List.countP_append]
    have h0 : evs.countP (isVertexEv u) = 0 :=
      List.countP_eq_zero.mpr (fun ev hev => by rw [(hevs ev hev).1 u]; simp)
    rw [h0, Nat.add_zero, hI.vd_count u]
  · intro u
    rw [List.countP_append]
    have h0 : evs.countP (isTreeToEv u) = 0 :=
      List.countP_eq_zero.mpr (fun ev hev => by rw [(hevs ev hev).2 u]; simp)
    rw [h0, Nat.add_zero, hI.tree_count u]

theorem DfsInv_pop {res : List dfs_entry} {time : Nat} {rest : List Nat}
    {events : List DfsEvent} {v : Nat} (hI : DfsInv res time (v :: rest) events) :
    DfsInv (updAt res v (fun x => {x with term_t := time + 1})) (time + 1) rest events := by
  obtain ⟨hv1, hvlen, hdisc, hterm⟩ := hI.stk v (List.mem_cons_self v rest)
  obtain ⟨e, he⟩ := at_v_exists hv1 hvlen
  have hed : discAt res v = e.discovery_t := discAt_eq he
  have het : e.term_t = 0 := by rw [← termAt_eq he]; exact hterm
  have hemem : e ∈ res := at_v_mem he
  have hebd := hI.bounds e hemem
  have hcd0 : res.countP (fun x => x.discovery_t == time + 1) = 0 :=
    List.countP_eq_zero.mpr (fun x hx => by
      have hb := (hI.bounds x hx).1
      intro hc
      simp only [beq_iff_eq] at hc
      omega)
  have hct0 : res.countP (fun x => x.term_t == time + 1) = 0 :=
    List.countP_eq_zero.mpr (fun x hx => by
      have hb := (hI.bounds x hx).2
      intro hc
      simp only [beq_iff_eq] at hc
      omega)
  have hnodup := List.nodup_cons.mp hI.nodup
  refine ⟨?_, ?_, ?_, ?_, ?_, ?_, hnodup.2, ?_, ?_, ?_⟩
  · intro x hx
    rcases mem_updAt he _ x hx with hxr | hxe
    · have := hI.bounds x hxr
      omega
    · rw [hxe]
      refine ⟨?_, le_refl _⟩
      show e.discovery_t ≤ time + 1
      omega
  · intro k h1 h2
    have hD := countP_updAt he (fun x => {x with term_t := time + 1})
      (fun x => x.discovery_t == k)
    have hT := countP_updAt he (fun x => {x with term_t := time + 1})
      (fun x => x.term_t == k)
    rcases Nat.lt_or_ge k (time + 1) with hk | hk
    · have := hI.times k h1 (by omega)
      have hTe : ((e.term_t == k) = false) := by
        rw [beq_eq_false_iff_ne]
        omega
      have hTf : ((({e with term_t := time + 1} : dfs_entry)).term_t == k) = false := by
        show ((time + 1 : Nat) == k) = false
        rw [beq_eq_false_iff_ne]
        omega
      rw [hTe, hTf] at hT
      simp at hT
      simp only [show (({e with term_t := time + 1} : dfs_entry)).discovery_t
        = e.discovery_t from rfl] at hD
      omega
    · have hke : k = time + 1 := by omega
      subst hke
      have hTe : ((e.term_t == time + 1) = false) := by
        rw [beq_eq_false_iff_ne]
        omega
      have hTf : ((({e with term_t := time + 1} : dfs_entry)).term_t == time + 1) = true := by
        show ((time + 1 : Nat) == time + 1) = true
        simp
      rw [hTe, hTf] at hT
      simp at hT
      simp only [show (({e with term_t := time + 1} : dfs_entry)).discovery_t
        = e.discovery_t from rfl] at hD
      omega
  · intro x hx
    rcases mem_updAt he _ x hx with hxr | hxe
    · exact hI.order x hxr
    · rw [hxe]
      intro _
      constructor
      · show e.discovery_t ≠ 0
        omega
      · show e.discovery_t < time + 1
        omega
  · intro x hx
    rcases mem_updAt he _ x hx with hxr | hxe
    · exact hI.fresh x hxr
    · rw [hxe]
      intro h0
      exact absurd h0 (by show e.discovery_t ≠ 0; omega)
  · have hD := countP_updAt he (fun x => {x with term_t := time + 1})
      (fun x => x.discovery_t != 0)
    have hT := countP_updAt he (fun x => {x with term_t := time + 1})
      (fun x => x.term_t != 0)
    have hTe : ((e.term_t != 0) = false) := by
      rw [het]
      rfl
    have hTf : ((({e with term_t := time + 1} : dfs_entry)).term_t != 0) = true := by
      show ((time + 1 : Nat) != 0) = true
      simp
    rw [hTe, hTf] at hT
    simp at hT
    simp only [show (({e with term_t := time + 1} : dfs_entry)).discovery_t
      = e.discovery_t from rfl] at hD
    have := hI.clock
    omega
  · intro u hu
    have hne : u ≠ v := fun h => hnodup.1 (h ▸ hu)
    obtain ⟨h1, h2, h3, h4⟩ := hI.stk u (List.mem_cons_of_mem v hu)
    refine ⟨h1, by rw [length_updAt]; exact h2, ?_, ?_⟩
    · rw [discAt_updAt_keep res v (fun x => {x with term_t := time + 1}) u (fun x => rfl)]
      exact h3
    · rw [termAt_updAt_ne res v (fun x => {x with term_t := time + 1}) u hne]
      exact h4
  · intro u h1 h2 h3 h4
    rw [length_updAt] at h2
    by_cases hne : u = v
    · subst hne
      rw [termAt_updAt_self he] at h4
      simp at h4
    · rw [discAt_updAt_keep res v (fun x => {x with term_t := time + 1}) u (fun x => rfl)] at h3
      rw [termAt_updAt_ne res v (fun x => {x with term_t := time + 1}) u hne] at h4
      have := hI.open_on_stack u h1 h2 h3 h4
      rcases List.mem_cons.mp this with h | h
      · exact absurd h hne
      · exact h
  · intro u
    rw [discAt_updAt_keep res v (fun x => {x with term_t := time + 1}) u (fun x => rfl)]
    exact hI.vd_count u
  · intro u
    rw [parentAt_updAt_keep res v (fun x => {x with term_t := time + 1}) u (fun x => rfl)]
    exact hI.tree_count u

theorem DfsInv_discover {res : List dfs_entry} {time : Nat} {stack : List Nat}
    {events : List DfsEvent} {v : Nat} {e : dfs_entry}
    (hI : DfsInv res time stack events)
    (he : at_v res v = some e) (h0 : e.discovery_t = 0) :
    DfsInv (updAt res v (fun x => {x with discovery_t := time + 1}))
      (time + 1) (v :: stack) (events ++ [DfsEvent.vertex v]) := by
  obtain ⟨hv1, hvlen, -⟩ := at_v_some_bounds he
  obtain ⟨hpar0, hterm0⟩ := hI.fresh e (at_v_mem he) h0
  have hdisc0 : discAt res v = 0 := by rw [discAt_eq he, h0]
  have hnotmem : v ∉ stack := fun hmem => absurd hdisc0 (hI.stk v hmem).2.2.1
  have hcd0 : res.countP (fun x => x.discovery_t == time + 1) = 0 :=
    List.countP_eq_zero.mpr (fun x hx => by
      have hb := (hI.bounds x hx).1
      intro hc
      simp only [beq_iff_eq] at hc
      omega)
  have hct0 : res.countP (fun x => x.term_t == time + 1) = 0 :=
    List.countP_eq_zero.mpr (fun x hx => by
      have hb := (hI.bounds x hx).2
      intro hc
      simp only [beq_iff_eq] at hc
      omega)
  have hebd := hI.bounds e (at_v_mem he)
  refine ⟨?_, ?_, ?_, ?_, ?_, ?_, ?_, ?_, ?_, ?_⟩
  · intro x hx
    rcases mem_updAt he _ x hx with hxr | hxe
    · have := hI.bounds x hxr
      omega
    · rw [hxe]
      exact ⟨le_refl _, by show e.term_t ≤ time + 1; omega⟩
  · intro k h1 h2
    have hD := countP_updAt he (fun x => {x with discovery_t := time + 1})
      (fun x => x.discovery_t == k)
    have hT := countP_updAt he (fun x => {x with discovery_t := time + 1})
      (fun x => x.term_t == k)
    have hDe : ((e.discovery_t == k) = false) := by
      rw [beq_eq_false_iff_ne]
      omega
    rw [hDe] at hD
    simp only [show (({e with discovery_t := time + 1} : dfs_entry)).term_t
      = e.term_t from rfl] at hT
    rcases Nat.lt_or_ge k (time + 1) with hk | hk
    · have := hI.times k h1 (by omega)
      have hDf : ((({e with discovery_t := time + 1} : dfs_entry)).discovery_t == k)
          = false := by
        show ((time + 1 : Nat) == k) = false
        rw [beq_eq_false_iff_ne]
        omega
      rw [hDf] at hD
      simp at hD
      omega
    · have hke : k = time + 1 := by omega
      subst hke
      have hDf : ((({e with discovery_t := time + 1} : dfs_entry)).discovery_t == time + 1)
          = true := by
        show ((time + 1 : Nat) == time + 1) = true
        simp
      rw [hDf] at hD
      simp at hD
      omega
  · intro x hx
    rcases mem_updAt he _ x hx with hxr | hxe
    · exact hI.order x hxr
    · rw [hxe]
      intro ht
      exact absurd (by show e.term_t = 0; exact hterm0 : (({e with discovery_t := time + 1} : dfs_entry)).term_t = 0) ht
  · intro x hx
    rcases mem_updAt he _ x hx with hxr | hxe
    · exact hI.fresh x hxr
    · rw [hxe]
      intro hd
      exact absurd hd (by show time + 1 ≠ 0; omega)
  · have hD := countP_updAt he (fun x => {x with discovery_t := time + 1})
      (fun x => x.discovery_t != 0)
    have hT := countP_updAt he (fun x => {x with discovery_t := time + 1})
      (fun x => x.term_t != 0)
    have hDe : ((e.discovery_t != 0) = false) := by
      rw [h0]
      rfl
    have hDf : ((({e with discovery_t := time + 1} : dfs_entry)).discovery_t != 0)
        = true := by
      show ((time + 1 : Nat) != 0) = true
      simp
    rw [hDe, hDf] at hD
    simp at hD
    simp only [show (({e with discovery_t := time + 1} : dfs_entry)).term_t
      = e.term_t from rfl] at hT
    have := hI.clock
    omega
  · intro u hu
    rcases List.mem_cons.mp hu with rfl | hu'
    · refine ⟨hv1, by rw [length_updAt]; omega, ?_, ?_⟩
      · rw [discAt_updAt_self he]
        show time + 1 ≠ 0
        omega
      · rw [termAt_updAt_self he]
        exact hterm0
    · have hne : u ≠ v := fun hh => hnotmem (hh ▸ hu')
      obtain ⟨h1, h2, h3, h4⟩ := hI.stk u hu'
      refine ⟨h1, by rw [length_updAt]; exact h2, ?_, ?_⟩
      · rw [discAt_updAt_ne res v _ u hne]
        exact h3
      · rw [termAt_updAt_keep res v (fun x => {x with discovery_t := time + 1}) u
          (fun x => rfl)]
        exact h4
  · exact List.nodup_cons.mpr ⟨hnotmem, hI.nodup⟩
  · intro u h1 h2 h3 h4
    rw [length_updAt] at h2
    by_cases hne : u = v
    · subst hne
      exact List.mem_cons_self u stack
    · rw [discAt_updAt_ne res v _ u hne] at h3
      rw [termAt_updAt_keep res v (fun x => {x with discovery_t := time + 1}) u
        (fun x => rfl)] at h4
      exact List.mem_cons_of_mem v (hI.open_on_stack u h1 h2 h3 h4)
  · intro u
    rw [List.countP_append]
    have hsing : List.countP (isVertexEv u) [DfsEvent.vertex v]
        = if v = u then 1 else 0 := by
      simp [List.countP_cons, isVertexEv]
    rw [hsing, hI.vd_count u]
    by_cases hne : u = v
    · subst hne
      rw [discAt_updAt_self he]
      rw [if_pos rfl, if_neg (by rw [hdisc0]; simp), if_pos (by show time + 1 ≠ 0; omega)]
    · rw [discAt_updAt_ne res v _ u hne,
        if_neg (show ¬ v = u from fun hh => hne hh.symm), Nat.add_zero]
  · intro u
    rw [List.countP_append]
    have hsing : List.countP (isTreeToEv u) [DfsEvent.vertex v] = 0 := by
      simp [List.countP_cons, isTreeToEv]
    rw [hsing, Nat.add_zero]
    rw [parentAt_updAt_keep res v (fun x => {x with discovery_t := time + 1}) u
      (fun x => rfl)]
    exact hI.tree_count u

theorem DfsInv_push {res : List dfs_entry} {time : Nat} {stack : List Nat}
    {events : List DfsEvent} {v s : Nat} {e : dfs_entry}
    (hI : DfsInv res time stack events) (hvmem : v ∈ stack)
    (he : at_v res s = some e) (h0 : e.discovery_t = 0) :
    DfsInv (updAt (updAt res s (fun x => {x with parent := v})) s
        (fun x => {x with discovery_t := time + 1}))
      (time + 1) (s :: stack)
      (events ++ [DfsEvent.tree v s, DfsEvent.vertex s]) := by
  rw [updAt_updAt_same he]
  obtain ⟨hs1, hslen, -⟩ := at_v_some_bounds he
  obtain ⟨hpar0, hterm0⟩ := hI.fresh e (at_v_mem he) h0
  have hv1 : 1 ≤ v := (hI.stk v hvmem).1
  have hdisc0 : discAt res s = 0 := by rw [discAt_eq he, h0]
  have hnotmem : s ∉ stack := fun hmem => absurd hdisc0 (hI.stk s hmem).2.2.1
  have hcd0 : res.countP (fun x => x.discovery_t == time + 1) = 0 :=
    List.countP_eq_zero.mpr (fun x hx => by
      have hb := (hI.bounds x hx).1
      intro hc
      simp only [beq_iff_eq] at hc
      omega)
  have hct0 : res.countP (fun x => x.term_t == time + 1) = 0 :=
    List.countP_eq_zero.mpr (fun x hx => by
      have hb := (hI.bounds x hx).2
      intro hc
      simp only [beq_iff_eq] at hc
      omega)
  have hebd := hI.bounds e (at_v_mem he)
  set f := fun x : dfs_entry =>
    ({({x with parent := v} : dfs_entry) with discovery_t := time + 1} : dfs_entry) with hf
  have hfd : ∀ x, (f x).discovery_t = time + 1 := fun x => rfl
  have hft : ∀ x, (f x).term_t = x.term_t := fun x => rfl
  have hfp : ∀ x, (f x).parent = v := fun x => rfl
  refine ⟨?_, ?_, ?_, ?_, ?_, ?_, ?_, ?_, ?_, ?_⟩
  · intro x hx
    rcases mem_updAt he f x hx with hxr | hxe
    · have := hI.bounds x hxr
      omega
    · rw [hxe]
      refine ⟨le_of_eq (hfd e), ?_⟩
      rw [hft e]
      omega
  · intro k h1 h2
    have hD := countP_updAt he f (fun x => x.discovery_t == k)
    have hT := countP_updAt he f (fun x => x.term_t == k)
    have hDe : ((e.discovery_t == k) = false) := by
      rw [beq_eq_false_iff_ne]
      omega
    rw [hDe] at hD
    rw [show ((f e).term_t == k) = (e.term_t == k) from by rw [hft]] at hT
    rcases Nat.lt_or_ge k (time + 1) with hk | hk
    · have := hI.times k h1 (by omega)
      have hDf : (((f e).discovery_t == k) = false) := by
        rw [hfd]
        rw [beq_eq_false_iff_ne]
        omega
      rw [hDf] at hD
      simp at hD
      omega
    · have hke : k = time + 1 := by omega
      subst hke
      have hDf : (((f e).discovery_t == time + 1) = true) := by
        rw [hfd]
        simp
      rw [hDf] at hD
      simp at hD
      omega
  · intro x hx
    rcases mem_updAt he f x hx with hxr | hxe
    · exact hI.order x hxr
    · rw [hxe]
      intro ht
      rw [hft] at ht
      exact absurd hterm0 ht
  · intro x hx
    rcases mem_updAt he f x hx with hxr | hxe
    · exact hI.fresh x hxr
    · rw [hxe]
      intro hd
      rw [hfd] at hd
      omega
  · have hD := countP_updAt he f (fun x => x.discovery_t != 0)
    have hT := countP_updAt he f (fun x => x.term_t != 0)
    have hDe : ((e.discovery_t != 0) = false) := by
      rw [h0]
      rfl
    have hDf : (((f e).discovery_t != 0) = true) := by
      rw [hfd]
      simp
    rw [hDe, hDf] at hD
    simp at hD
    rw [show ((f e).term_t != 0) = (e.term_t != 0) from by rw [hft]] at hT
    have := hI.clock
    omega
  · intro u hu
    rcases List.mem_cons.mp hu with rfl | hu'
    · refine ⟨hs1, by rw [length_updAt]; omega, ?_, ?_⟩
      · rw [discAt_updAt_self he]
        rw [hfd]
        omega
      · rw [termAt_updAt_self he, hft]
        exact hterm0
    · have hne : u ≠ s := fun hh => hnotmem (hh ▸ hu')
      obtain ⟨h1, h2, h3, h4⟩ := hI.stk u hu'
      refine ⟨h1, by rw [length_updAt]; exact h2, ?_, ?_⟩
      · rw [discAt_updAt_ne res s f u hne]
        exact h3
      · rw [termAt_updAt_keep res s f u hft]
        exact h4
  · exact List.nodup_cons.mpr ⟨hnotmem, hI.nodup⟩
  · intro u h1 h2 h3 h4
    rw [length_updAt] at h2
    by_cases hne : u = s
    · subst hne
      exact List.mem_cons_self u stack
    · rw [discAt_updAt_ne res s f u hne] at h3
      rw [termAt_updAt_keep res s f u hft] at h4
      exact List.mem_cons_of_mem s (hI.open_on_stack u h1 h2 h3 h4)
  · intro u
    rw [List.countP_append]
    have hsing : List.countP (isVertexEv u) [DfsEvent.tree v s, DfsEvent.vertex s]
        = if s = u then 1 else 0 := by
      simp [List.countP_cons, isVertexEv]
    rw [hsing, hI.vd_count u]
    by_cases hne : u = s
    · subst hne
      rw [discAt_updAt_self he, hfd]
      rw [if_pos rfl, if_neg (by rw [hdisc0]; simp), if_pos (by omega)]
    · rw [discAt_updAt_ne res s f u hne,
        if_neg (show ¬ s = u from fun hh => hne hh.symm), Nat.add_zero]
  · intro u
    rw [List.countP_append]
    have hsing : List.countP (isTreeToEv u) [DfsEvent.tree v s, DfsEvent.vertex s]
        = if s = u then 1 else 0 := by
      simp [List.countP_cons, isTreeToEv]
    rw [hsing, hI.tree_count u]
    by_cases hne : u = s
    · subst hne
      rw [parentAt_updAt_self he, hfp]
      rw [if_pos rfl, if_neg (by rw [parentAt_eq he, hpar0]; simp),
        if_pos (by omega)]
    · rw [parentAt_updAt_ne res s f u hne,
        if_neg (show ¬ s = u from fun hh => hne hh.symm), Nat.add_zero]

theorem dfsLoop_inv (g : StarRep) :
    ∀ (n : Nat) (stack : List Nat) (res : List dfs_entry) (time : Nat)
      (events : List DfsEvent) (out : List dfs_entry × Nat × List DfsEvent),
      2 * countUndisc res + stack.length ≤ n →
      DfsInv res time stack events →
      dfsLoop g stack res time events = some out →
      DfsInv out.1 out.2.1 [] out.2.2
      ∧ out.1.length = res.length
      ∧ (∀ u, discAt res u ≠ 0 → discAt out.1 u = discAt res u) := by
  intro n
  induction n with
  | zero =>
    intro stack res time events out hb hI hrun
    cases stack with
    | nil =>
      rw [dfsLoop_nil] at hrun
      obtain rfl := Option.some.inj hrun
      exact ⟨hI, rfl, fun u h => rfl⟩
    | cons v rest => simp at hb
  | succ m ih =>
    intro stack res time events out hb hI hrun
    cases stack with
    | nil =>
      rw [dfsLoop_nil] at hrun
      obtain rfl := Option.some.inj hrun
      exact ⟨hI, rfl, fun u h => rfl⟩
    | cons v rest =>
      rw [dfsLoop_cons] at hrun
      obtain ⟨hv1, hvlen, hvdisc, hvterm⟩ := hI.stk v (List.mem_cons_self v rest)
      obtain ⟨ve, hve⟩ := at_v_exists hv1 hvlen
      rw [hve] at hrun
      dsimp only at hrun
      cases hsucc : successors g v with
      | none => rw [hsucc] at hrun; simp at hrun
      | some succs =>
        rw [hsucc] at hrun
        dsimp only at hrun
        cases hscan : scanSuccs res ve.discovery_t v succs with
        | none => rw [hscan] at hrun; simp at hrun
        | some p =>
          rw [hscan] at hrun
          obtain ⟨evs, r⟩ := p
          have hevs := scanSuccs_events res ve.discovery_t v succs evs r hscan
          cases r with
          | none =>
            dsimp only at hrun
            have hI3 := DfsInv_pop (DfsInv_events hI evs hevs)
            have hcnt : countUndisc (updAt res v (fun x => {x with term_t := time + 1}))
                = countUndisc res :=
              countUndisc_updAt_keep res v (fun x => {x with term_t := time + 1})
                (fun x => rfl)
            obtain ⟨hA, hB, hC⟩ := ih rest _ (time + 1) (events ++ evs) out
              (by rw [hcnt]; simp only [List.length_cons] at hb; omega) hI3 hrun
            refine ⟨hA, by rw [hB, length_updAt], fun u h => ?_⟩
            have hk := discAt_updAt_keep res v (fun x => {x with term_t := time + 1}) u
              (fun x => rfl)
            exact (hC u (by rw [hk]; exact h)).trans hk
          | some s =>
            dsimp only at hrun
            obtain ⟨se, hse, hs0⟩ := scanSuccs_found res ve.discovery_t v succs evs s hscan
            have hI3 := DfsInv_push (DfsInv_events hI evs hevs)
              (List.mem_cons_self v rest) hse hs0
            have h2 : at_v (updAt res s (fun x => {x with parent := v})) s
                = some {se with parent := v} := by
              rw [at_v_updAt, if_pos rfl, hse]
              rfl
            have h3 := countUndisc_updAt_discover _ s (time + 1) _ h2 hs0 (by omega)
            have h1 : countUndisc (updAt res s (fun x => {x with parent := v}))
                = countUndisc res :=
              countUndisc_updAt_keep res s (fun x => {x with parent := v}) (fun x => rfl)
            obtain ⟨hA, hB, hC⟩ := ih (s :: v :: rest) _ (time + 1) _ out
              (by simp only [List.length_cons] at hb ⊢; omega) hI3 hrun
            refine ⟨hA, by rw [hB, length_updAt, length_updAt], fun u h => ?_⟩
            have hne : u ≠ s := fun hh => by
              rw [hh, discAt_eq hse, hs0] at h
              exact h rfl
            have hk1 : discAt (updAt (updAt res s (fun x => {x with parent := v})) s
                (fun x => {x with discovery_t := time + 1})) u = discAt res u := by
              rw [discAt_updAt_ne _ s _ u hne, discAt_updAt_ne res s _ u hne]
            exact (hC u (by rw [hk1]; exact h)).trans hk1

theorem dfs_v_inv (g : StarRep) (res : List dfs_entry) (time : Nat) (events : List DfsEvent)
    (v : Nat) (out : List dfs_entry × Nat × List DfsEvent) (hI : DfsInv res time [] events)
    (e : dfs_entry) (hve : at_v res v = some e) (h0 : e.discovery_t = 0)
    (hrun : dfs_v g res time events v = some out) :
    DfsInv out.1 out.2.1 [] out.2.2 ∧ out.1.length = res.length
    ∧ (∀ u, discAt res u ≠ 0 → discAt out.1 u = discAt res u)
    ∧ discAt out.1 v ≠ 0 := by
  unfold dfs_v at hrun
  rw [hve] at hrun
  dsimp only at hrun
  have hI2 := DfsInv_discover hI hve h0
  obtain ⟨hA, hB, hC⟩ := dfsLoop_inv g
    (2 * countUndisc (updAt res v (fun x => {x with discovery_t := time + 1})) + 1)
    [v] _ (time + 1) _ out (by simp) hI2 hrun
  have hselfd : discAt (updAt res v (fun x => {x with discovery_t := time + 1})) v
      = time + 1 := by
    rw [discAt_updAt_self hve]
  refine ⟨hA, by rw [hB, length_updAt], fun u h => ?_, ?_⟩
  · have hne : u ≠ v := fun hh => by
      rw [hh, discAt_eq hve, h0] at h
      exact h rfl
    have hk : discAt (updAt res v (fun x => {x with discovery_t := time + 1})) u
        = discAt res u := discAt_updAt_ne res v _ u hne
    exact (hC u (by rw [hk]; exact h)).trans hk
  · rw [hC v (by rw [hselfd]; omega), hselfd]
    omega

theorem executeLoop_inv (g : StarRep) :
    ∀ (roots : List Nat) (res : List dfs_entry) (time : Nat) (events : List DfsEvent)
      (out : List dfs_entry × Nat × List DfsEvent),
      DfsInv res time [] events →
      executeLoop g roots res time events = some out →
      DfsInv out.1 out.2.1 [] out.2.2
      ∧ out.1.length = res.length
      ∧ (∀ u, discAt res u ≠ 0 → discAt out.1 u = discAt res u)
      ∧ (∀ v ∈ roots, discAt out.1 v ≠ 0) := by
  intro roots
  induction roots with
  | nil =>
    intro res time events out hI hrun
    unfold executeLoop at hrun
    obtain rfl := Option.some.inj hrun
    exact ⟨hI, rfl, fun u h => rfl, by simp⟩
  | cons v vs ih =>
    intro res time events out hI hrun
    unfold executeLoop at hrun
    cases hve : at_v res v with
    | none => rw [hve] at hrun; simp at hrun
    | some e =>
      rw [hve] at hrun
      dsimp only at hrun
      by_cases hd : e.discovery_t ≠ 0
      · rw [if_pos hd] at hrun
        obtain ⟨hA, hB, hC, hD⟩ := ih res time events out hI hrun
        refine ⟨hA, hB, hC, fun w hw => ?_⟩
        rcases List.mem_cons.mp hw with rfl | hw'
        · rw [hC w (by rw [discAt_eq hve]; exact hd), discAt_eq hve]
          exact hd
        · exact hD w hw'
      · rw [if_neg hd] at hrun
        push_neg at hd
        cases hdv : dfs_v g res time events v with
        | none => rw [hdv] at hrun; simp at hrun
        | some mid =>
          rw [hdv] at hrun
          obtain ⟨res', time', events'⟩ := mid
          dsimp only at hrun
          obtain ⟨hA1, hB1, hC1, hD1⟩ := dfs_v_inv g res time events v
            (res', time', events') hI e hve hd hdv
          obtain ⟨hA, hB, hC, hD⟩ := ih res' time' events' out hA1 hrun
          refine ⟨hA, by rw [hB]; exact hB1, fun u h => ?_, fun w hw => ?_⟩
          · exact (hC u (by rw [hC1 u h]; exact h)).trans (hC1 u h)
          · rcases List.mem_cons.mp hw with rfl | hw'
            · rw [hC w hD1]
              exact hD1
            · exact hD w hw'

theorem execute_inv (g : StarRep) (out : List dfs_entry × Nat × List DfsEvent)
    (hrun : execute g = some out) :
    DfsInv out.1 out.2.1 [] out.2.2
    ∧ out.1.length = vertexes_count g
    ∧ (∀ v, 1 ≤ v → v ≤ vertexes_count g → discAt out.1 v ≠ 0) := by
  unfold execute at hrun
  obtain ⟨hA, hB, hC, hD⟩ := executeLoop_inv g (vertexes g) _ 0 [] out
    (DfsInv_init _) hrun
  refine ⟨hA, by rw [hB, List.length_replicate], fun v h1 h2 => hD v ?_⟩
  unfold vertexes
  rw [List.mem_range']
  exact ⟨v - 1, by unfold vertexes_count at h2; omega, by omega⟩

theorem execute_all_finished (g : StarRep) (out : List dfs_entry × Nat × List DfsEvent)
    (hrun : execute g = some out) :
    ∀ v, 1 ≤ v → v ≤ vertexes_count g → discAt out.1 v ≠ 0 ∧ termAt out.1 v ≠ 0 := by
  obtain ⟨hI, hlen, hdisc⟩ := execute_inv g out hrun
  intro v h1 h2
  refine ⟨hdisc v h1 h2, fun ht => ?_⟩
  exact absurd (hI.open_on_stack v h1 (by omega) (hdisc v h1 h2) ht) (List.not_mem_nil v)

/-- C8: after a completed execute, every vertex (all are discovered and
finished) has a positive discovery time strictly below its finish time,
and no two distinct vertices share a discovery time or share a finish
time. -/
theorem execute_timestamps_valid (g : StarRep) (out : List dfs_entry × Nat × List DfsEvent)
    (hrun : execute g = some out) :
    (∀ v, 1 ≤ v → v ≤ vertexes_count g →
      0 < discAt out.1 v ∧ discAt out.1 v < termAt out.1 v)
    ∧ (∀ u w, 1 ≤ u → u ≤ vertexes_count g → 1 ≤ w → w ≤ vertexes_count g → u ≠ w →
        discAt out.1 u ≠ discAt out.1 w ∧ termAt out.1 u ≠ termAt out.1 w) := by
  obtain ⟨hI, hlen, hdisc⟩ := execute_inv g out hrun
  have hfin := execute_all_finished g out hrun
  constructor
  · intro v h1 h2
    have hvl : v ≤ out.1.length := by rw [hlen]; omega
    obtain ⟨e, he⟩ := at_v_exists h1 hvl
    have ho := hI.order e (at_v_mem he)
    obtain ⟨hd, ht⟩ := hfin v h1 h2
    rw [discAt_eq he] at hd ⊢
    rw [termAt_eq he] at ht ⊢
    obtain ⟨h3, h4⟩ := ho ht
    omega
  · intro u w h1 h2 h3 h4 hne
    have hul : u ≤ out.1.length := by rw [hlen]; omega
    have hwl : w ≤ out.1.length := by rw [hlen]; omega
    obtain ⟨eu, heu⟩ := at_v_exists h1 hul
    obtain ⟨ew, hew⟩ := at_v_exists h3 hwl
    obtain ⟨hdu, htu⟩ := hfin u h1 h2
    obtain ⟨hdw, htw⟩ := hfin w h3 h4
    rw [discAt_eq heu] at hdu ⊢
    rw [discAt_eq hew] at hdw ⊢
    rw [termAt_eq heu] at htu ⊢
    rw [termAt_eq hew] at htw ⊢
    constructor
    · intro heq
      set k := ew.discovery_t with hk
      have hbd := hI.bounds ew (at_v_mem hew)
      have h2cnt := two_le_countP (fun x => x.discovery_t == k) heu hew hne
        (by simp [heq]) (by simp)
      have := hI.times k (by omega) (by omega)
      omega
    · intro heq
      set k := ew.term_t with hk
      have hbd := hI.bounds ew (at_v_mem hew)
      have h2cnt := two_le_countP (fun x => x.term_t == k) heu hew hne
        (by simp [heq]) (by simp)
      have := hI.times k (by omega) (by omega)
      omega

/-- Witness for C8 on the triangle scenario graph. -/
theorem execute_timestamps_valid_witness :
    (∀ v, 1 ≤ v → v ≤ vertexes_count triangleGraph →
      0 < discAt [⟨1, 6, 0⟩, ⟨2, 5, 1⟩, ⟨3, 4, 2⟩] v
      ∧ discAt [⟨1, 6, 0⟩, ⟨2, 5, 1⟩, ⟨3, 4, 2⟩] v
          < termAt [⟨1, 6, 0⟩, ⟨2, 5, 1⟩, ⟨3, 4, 2⟩] v)
    ∧ (∀ u w, 1 ≤ u → u ≤ vertexes_count triangleGraph → 1 ≤ w →
        w ≤ vertexes_count triangleGraph → u ≠ w →
        discAt [⟨1, 6, 0⟩, ⟨2, 5, 1⟩, ⟨3, 4, 2⟩] u
            ≠ discAt [⟨1, 6, 0⟩, ⟨2, 5, 1⟩, ⟨3, 4, 2⟩] w
        ∧ termAt [⟨1, 6, 0⟩, ⟨2, 5, 1⟩, ⟨3, 4, 2⟩] u
            ≠ termAt [⟨1, 6, 0⟩, ⟨2, 5, 1⟩, ⟨3, 4, 2⟩] w) :=
  execute_timestamps_valid triangleGraph
    ([⟨1, 6, 0⟩, ⟨2, 5, 1⟩, ⟨3, 4, 2⟩], 6,
     [DfsEvent.vertex 1, DfsEvent.tree 1 2, DfsEvent.vertex 2, DfsEvent.tree 2 3,
      DfsEvent.vertex 3, DfsEvent.forward 2 3, DfsEvent.forward 1 2,
      DfsEvent.forward 1 3]) (by decide)

/-- C10: execute discovers and finishes every vertex in [1, V], not
only those reachable from vertex 1 (the root loop restarts at every
undiscovered vertex); the final clock is exactly 2V, all 2V timestamps
lie in [1, 2V], and each value in [1, 2V] is taken by exactly one
discovery or finish slot — so the timestamps together form exactly the
set {1, ..., 2V}. -/
theorem execute_clock_covers_range (g : StarRep)
    (out : List dfs_entry × Nat × List DfsEvent) (hrun : execute g = some out) :
    out.2.1 = 2 * vertexes_count g
    ∧ (∀ v, 1 ≤ v → v ≤ vertexes_count g →
        1 ≤ discAt out.1 v ∧ discAt out.1 v ≤ 2 * vertexes_count g
        ∧ 1 ≤ termAt out.1 v ∧ termAt out.1 v ≤ 2 * vertexes_count g)
    ∧ (∀ k, 1 ≤ k → k ≤ 2 * vertexes_count g →
        out.1.countP (fun e => e.discovery_t == k)
          + out.1.countP (fun e => e.term_t == k) = 1) := by
  obtain ⟨hI, hlen, hdisc⟩ := execute_inv g out hrun
  have hfin := execute_all_finished g out hrun
  have hallmem : ∀ e ∈ out.1, e.discovery_t ≠ 0 ∧ e.term_t ≠ 0 := by
    intro e he
    obtain ⟨u, hu1, hu2, hue⟩ := entry_index he
    obtain ⟨hd, ht⟩ := hfin u hu1 (by omega)
    rw [discAt_eq hue] at hd
    rw [termAt_eq hue] at ht
    exact ⟨hd, ht⟩
  have hcd : out.1.countP (fun e => e.discovery_t != 0) = out.1.length := by
    rw [List.countP_eq_length]
    intro e he
    have := (hallmem e he).1
    simp
    omega
  have hct : out.1.countP (fun e => e.term_t != 0) = out.1.length := by
    rw [List.countP_eq_length]
    intro e he
    have := (hallmem e he).2
    simp
    omega
  have htime : out.2.1 = 2 * vertexes_count g := by
    have := hI.clock
    rw [hcd, hct, hlen] at this
    omega
  refine ⟨htime, ?_, ?_⟩
  · intro v h1 h2
    have hvl : v ≤ out.1.length := by rw [hlen]; omega
    obtain ⟨e, he⟩ := at_v_exists h1 hvl
    have hbd := hI.bounds e (at_v_mem he)
    obtain ⟨hd, ht⟩ := hfin v h1 h2
    rw [discAt_eq he] at hd ⊢
    rw [termAt_eq he] at ht ⊢
    rw [htime] at hbd
    omega
  · intro k hk1 hk2
    exact hI.times k hk1 (by rw [htime]; omega)

/-- Witness for C10 on the triangle scenario graph. -/
theorem execute_clock_covers_range_witness :
    (6 : Nat) = 2 * vertexes_count triangleGraph
    ∧ (∀ v, 1 ≤ v → v ≤ vertexes_count triangleGraph →
        1 ≤ discAt [⟨1, 6, 0⟩, ⟨2, 5, 1⟩, ⟨3, 4, 2⟩] v
        ∧ discAt [⟨1, 6, 0⟩, ⟨2, 5, 1⟩, ⟨3, 4, 2⟩] v ≤ 2 * vertexes_count triangleGraph
        ∧ 1 ≤ termAt [⟨1, 6, 0⟩, ⟨2, 5, 1⟩, ⟨3, 4, 2⟩] v
        ∧ termAt [⟨1, 6, 0⟩, ⟨2, 5, 1⟩, ⟨3, 4, 2⟩] v ≤ 2 * vertexes_count triangleGraph)
    ∧ (∀ k, 1 ≤ k → k ≤ 2 * vertexes_count triangleGraph →
        List.countP (fun e => e.discovery_t == k)
            ([⟨1, 6, 0⟩, ⟨2, 5, 1⟩, ⟨3, 4, 2⟩] : List dfs_entry)
          + List.countP (fun e => e.term_t == k)
            ([⟨1, 6, 0⟩, ⟨2, 5, 1⟩, ⟨3, 4, 2⟩] : List dfs_entry) = 1) :=
  execute_clock_covers_range triangleGraph
    ([⟨1, 6, 0⟩, ⟨2, 5, 1⟩, ⟨3, 4, 2⟩], 6,
     [DfsEvent.vertex 1, DfsEvent.tree 1 2, DfsEvent.vertex 2, DfsEvent.tree 2 3,
      DfsEvent.vertex 3, DfsEvent.forward 2 3, DfsEvent.forward 1 2,
      DfsEvent.forward 1 3]) (by decide)

/-- C3 amended: during one execute the vertex-discovery callback runs
exactly once per vertex and the tree-edge callback at most once per
edge (at most one tree event per destination vertex); the back, forward
and cross callbacks are not limited to one invocation per edge — a
resolved edge is re-scanned, and its event re-emitted, each time
control returns to its origin on the stack. -/
theorem visitor_call_counts (g : StarRep)
    (out : List dfs_entry × Nat × List DfsEvent) (hrun : execute g = some out) :
    (∀ u, 1 ≤ u → u ≤ vertexes_count g → out.2.2.countP (isVertexEv u) = 1)
    ∧ (∀ p u, out.2.2.countP (fun ev => ev == DfsEvent.tree p u) ≤ 1) := by
  obtain ⟨hI, hlen, hdisc⟩ := execute_inv g out hrun
  constructor
  · intro u h1 h2
    rw [hI.vd_count u, if_pos (hdisc u h1 h2)]
  · intro p u
    have hmono : out.2.2.countP (fun ev => ev == DfsEvent.tree p u)
        ≤ out.2.2.countP (isTreeToEv u) := by
      apply List.countP_mono_left
      intro ev _ hev
      rw [beq_iff_eq] at hev
      rw [hev]
      show (u == u) = true
      simp
    have := hI.tree_count u
    by_cases hp : parentAt out.1 u ≠ 0
    · rw [if_pos hp] at this
      omega
    · rw [if_neg hp] at this
      omega

/-- Witness for C3 amended on the triangle scenario graph. -/
theorem visitor_call_counts_witness :
    (∀ u, 1 ≤ u → u ≤ vertexes_count triangleGraph →
      List.countP (isVertexEv u)
        [DfsEvent.vertex 1, DfsEvent.tree 1 2, DfsEvent.vertex 2, DfsEvent.tree 2 3,
         DfsEvent.vertex 3, DfsEvent.forward 2 3, DfsEvent.forward 1 2,
         DfsEvent.forward 1 3] = 1)
    ∧ (∀ p u, List.countP (fun ev => ev == DfsEvent.tree p u)
        [DfsEvent.vertex 1, DfsEvent.tree 1 2, DfsEvent.vertex 2, DfsEvent.tree 2 3,
         DfsEvent.vertex 3, DfsEvent.forward 2 3, DfsEvent.forward 1 2,
         DfsEvent.forward 1 3] ≤ 1) :=
  visitor_call_counts triangleGraph
    ([⟨1, 6, 0⟩, ⟨2, 5, 1⟩, ⟨3, 4, 2⟩], 6,
     [DfsEvent.vertex 1, DfsEvent.tree 1 2, DfsEvent.vertex 2, DfsEvent.tree 2 3,
      DfsEvent.vertex 3, DfsEvent.forward 2 3, DfsEvent.forward 1 2,
      DfsEvent.forward 1 3]) (by decide)

/-- C3 counterexample: the claim states that each edge occurrence
triggers at most one event across the four edge callbacks.  On the
triangle graph the single occurrence of edge (1, 2) triggers two: a
tree event at discovery time and a forward event when vertex 1's
successor scan is re-run after vertex 2 is finished. -/
theorem edge_event_emitted_twice :
    (execute triangleGraph).map (fun out =>
      out.2.2.countP (fun ev => ev == DfsEvent.tree 1 2 || ev == DfsEvent.back 1 2
        || ev == DfsEvent.forward 1 2 || ev == DfsEvent.cross 1 2)) = some 2 := by
  decide

theorem countUndisc_pos {res : List dfs_entry} {s : Nat} {se : dfs_entry}
    (hse : at_v res s = some se) (h0 : se.discovery_t = 0) : 1 ≤ countUndisc res := by
  rw [Nat.one_le_iff_ne_zero, ← Nat.pos_iff_ne_zero]
  unfold countUndisc
  rw [List.countP_pos_iff]
  exact ⟨se, at_v_mem hse, by simp [h0]⟩

theorem scanSuccs_split (res : List dfs_entry) (vd v : Nat) :
    ∀ (l : List Nat) (evs : List DfsEvent) (s : Nat),
      scanSuccs res vd v l = some (evs, some s) →
      ∃ pre post, l = pre ++ s :: post
        ∧ (∀ x ∈ pre, ∃ xe, at_v res x = some xe ∧ xe.discovery_t ≠ 0) := by
  intro l
  induction l with
  | nil => intro evs s h; simp [scanSuccs] at h
  | cons x rest ih =>
    intro evs s h
    unfold scanSuccs at h
    cases hx : at_v res x with
    | none => rw [hx] at h; simp at h
    | some xe =>
      rw [hx] at h
      dsimp only at h
      by_cases hd : xe.discovery_t = 0
      · rw [if_pos hd] at h
        simp only [Option.some.injEq, Prod.mk.injEq] at h
        obtain ⟨-, rfl⟩ := h
        exact ⟨[], rest, rfl, by simp⟩
      · rw [if_neg hd] at h
        rcases hr : scanSuccs res vd v rest with - | ⟨evs', r'⟩
        · rw [hr] at h; simp at h
        · rw [hr] at h
          simp only [Option.some.injEq, Prod.mk.injEq] at h
          obtain ⟨-, hr2⟩ := h
          obtain ⟨pre, post, hsplit, hpre⟩ := ih evs' s (by rw [hr, hr2])
          refine ⟨x :: pre, post, by rw [hsplit]; rfl, ?_⟩
          intro y hy
          rcases List.mem_cons.mp hy with rfl | hy'
          · exact ⟨xe, hx, hd⟩
          · exact hpre y hy'

theorem recSuccs_skip (child : Nat → List dfs_entry → Nat → Option (List dfs_entry × Nat)) :
    ∀ (pre : List Nat) (v : Nat) (tl : List Nat) (res : List dfs_entry) (time : Nat),
      (∀ x ∈ pre, ∃ xe, at_v res x = some xe ∧ xe.discovery_t ≠ 0) →
      recSuccs child v (pre ++ tl) res time = recSuccs child v tl res time := by
  intro pre
  induction pre with
  | nil => intro v tl res time _; rfl
  | cons x pre' ih =>
    intro v tl res time hpre
    obtain ⟨xe, hx, hd⟩ := hpre x (by simp)
    show recSuccs child v (x :: (pre' ++ tl)) res time = _
    conv_lhs => rw [recSuccs]
    rw [hx]
    dsimp only
    rw [if_neg hd]
    exact ih v tl res time (fun y hy => hpre y (by simp [hy]))

theorem recSuccs_of_scan_none {res : List dfs_entry} {vd v : Nat}
    (child : Nat → List dfs_entry → Nat → Option (List dfs_entry × Nat)) :
    ∀ (l : List Nat) (time : Nat),
      scanSuccs res vd v l = none →
      recSuccs child v l res time = none := by
  intro l
  induction l with
  | nil => intro time h; simp [scanSuccs] at h
  | cons x rest ih =>
    intro time h
    unfold scanSuccs at h
    cases hx : at_v res x with
    | none =>
      unfold recSuccs
      rw [hx]
    | some xe =>
      rw [hx] at h
      dsimp only at h
      by_cases hd : xe.discovery_t = 0
      · rw [if_pos hd] at h
        simp at h
      · rw [if_neg hd] at h
        unfold recSuccs
        rw [hx]
        dsimp only
        rw [if_neg hd]
        apply ih
        rcases hr : scanSuccs res vd v rest with - | p
        · rfl
        · rw [hr] at h
          obtain ⟨evs', r'⟩ := p
          simp at h

theorem recSuccs_of_scan_all {res : List dfs_entry} {vd v : Nat}
    (child : Nat → List dfs_entry → Nat → Option (List dfs_entry × Nat)) :
    ∀ (l : List Nat) (evs : List DfsEvent) (time : Nat),
      scanSuccs res vd v l = some (evs, none) →
      recSuccs child v l res time
        = some (updAt res v (fun x => {x with term_t := time + 1}), time + 1) := by
  intro l
  induction l with
  | nil => intro evs time _; rfl
  | cons x rest ih =>
    intro evs time h
    unfold scanSuccs at h
    cases hx : at_v res x with
    | none => rw [hx] at h; simp at h
    | some xe =>
      rw [hx] at h
      dsimp only at h
      by_cases hd : xe.discovery_t = 0
      · rw [if_pos hd] at h
        simp at h
      · rw [if_neg hd] at h
        unfold recSuccs
        rw [hx]
        dsimp only
        rw [if_neg hd]
        rcases hr : scanSuccs res vd v rest with - | ⟨evs', r'⟩
        · rw [hr] at h; simp at h
        · rw [hr] at h
          simp only [Option.some.injEq, Prod.mk.injEq] at h
          obtain ⟨-, hr2⟩ := h
          exact ih evs' time (by rw [hr, hr2])

theorem preservesEntries_refl (res : List dfs_entry) : PreservesEntries res res :=
  ⟨rfl, Nat.le_refl _, fun _ _ => rfl⟩

theorem preservesEntries_trans {a b c : List dfs_entry}
    (h1 : PreservesEntries a b) (h2 : PreservesEntries b c) : PreservesEntries a c := by
  obtain ⟨l1, u1, d1⟩ := h1
  obtain ⟨l2, u2, d2⟩ := h2
  refine ⟨l2.trans l1, u2.trans u1, fun u hu => ?_⟩
  have hb := d1 u hu
  rw [d2 u (by rw [hb]; exact hu), hb]

theorem preservesEntries_updAt_keep (res : List dfs_entry) (v : Nat)
    (f : dfs_entry → dfs_entry) (hf : ∀ x, (f x).discovery_t = x.discovery_t) :
    PreservesEntries res (updAt res v f) :=
  ⟨length_updAt res v f,
   Nat.le_of_eq (countUndisc_updAt_keep res v f hf),
   fun u _ => discAt_updAt_keep res v f u hf⟩

theorem preservesEntries_discover {res : List dfs_entry} {s : Nat} {se : dfs_entry}
    (hse : at_v res s = some se) (h0 : se.discovery_t = 0) (v time : Nat) :
    PreservesEntries res
      (updAt (updAt res s (fun e => {e with parent := v})) s
        (fun e => {e with discovery_t := time + 1}))
    ∧ countUndisc (updAt (updAt res s (fun e => {e with parent := v})) s
        (fun e => {e with discovery_t := time + 1})) + 1 = countUndisc res := by
  have hpar : at_v (updAt res s (fun e => {e with parent := v})) s
      = some {se with parent := v} := by
    rw [at_v_updAt]; simp [hse]
  have hU1 : countUndisc (updAt res s (fun e => {e with parent := v})) = countUndisc res :=
    countUndisc_updAt_keep res s (fun e => {e with parent := v}) (fun x => rfl)
  have hU2 := countUndisc_updAt_discover _ s (time + 1) _ hpar h0 (by omega)
  refine ⟨⟨?_, ?_, ?_⟩, by omega⟩
  · rw [length_updAt, length_updAt]
  · omega
  · intro u hu
    have hus : u ≠ s := by
      intro hh
      rw [hh, discAt_eq hse, h0] at hu
      exact hu rfl
    rw [discAt_updAt_ne _ _ _ _ hus, discAt_updAt_ne _ _ _ _ hus]

theorem recSuccs_mono (child : Nat → List dfs_entry → Nat → Option (List dfs_entry × Nat))
    (v : Nat)
    (hchild : ∀ s r t r' t', child s r t = some (r', t') → PreservesEntries r r') :
    ∀ (l : List Nat) (res : List dfs_entry) (time : Nat)
      (res' : List dfs_entry) (time' : Nat),
      recSuccs child v l res time = some (res', time') → PreservesEntries res res' := by
  intro l
  induction l with
  | nil =>
    intro res time res' time' h
    unfold recSuccs at h
    simp only [Option.some.injEq, Prod.mk.injEq] at h
    obtain ⟨h1, -⟩ := h
    rw [← h1]
    exact preservesEntries_updAt_keep res v _ (fun x => rfl)
  | cons s rest ih =>
    intro res time res' time' h
    unfold recSuccs at h
    cases hx : at_v res s with
    | none => rw [hx] at h; exact absurd h (by simp)
    | some se =>
      rw [hx] at h
      dsimp only at h
      by_cases hd : se.discovery_t = 0
      · rw [if_pos hd] at h
        rcases hc : child s
            (updAt (updAt res s (fun e => {e with parent := v})) s
              (fun e => {e with discovery_t := time + 1})) (time + 1) with - | ⟨r1, t1⟩
        · rw [hc] at h; exact absurd h (by simp)
        · rw [hc] at h
          dsimp only at h
          obtain ⟨hP3, -⟩ := preservesEntries_discover hx hd v time
          exact preservesEntries_trans hP3
            (preservesEntries_trans (hchild s _ _ r1 t1 hc) (ih r1 t1 res' time' h))
      · rw [if_neg hd] at h
        exact ih res time res' time' h

theorem recVisit_mono (g : StarRep) :
    ∀ (fuel v : Nat) (res : List dfs_entry) (time : Nat)
      (res' : List dfs_entry) (time' : Nat),
      recVisit g fuel v res time = some (res', time') → PreservesEntries res res' := by
  intro fuel
  induction fuel with
  | zero =>
    intro v res time res' time' h
    exact absurd h (by simp [recVisit])
  | succ f ih =>
    intro v res time res' time' h
    unfold recVisit at h
    cases hsucc : successors g v with
    | none => rw [hsucc] at h; exact absurd h (by simp)
    | some ls =>
      rw [hsucc] at h
      dsimp only at h
      exact recSuccs_mono (recVisit g f) v (fun s r t r' t' hc => ih s r t r' t' hc)
        ls res time res' time' h

theorem recRemain_mono (g : StarRep) (fuel v : Nat) (res : List dfs_entry) (time : Nat)
    (res' : List dfs_entry) (time' : Nat)
    (h : recRemain g fuel v res time = some (res', time')) : PreservesEntries res res' := by
  unfold recRemain at h
  cases hsucc : successors g v with
  | none => rw [hsucc] at h; exact absurd h (by simp)
  | some ls =>
    rw [hsucc] at h
    dsimp only at h
    exact recSuccs_mono (recVisit g fuel) v
      (fun s r t r' t' hc => recVisit_mono g fuel s r t r' t' hc) ls res time res' time' h

theorem dfsLoop_proj_events (g : StarRep) :
    ∀ (n : Nat) (stack : List Nat) (res : List dfs_entry) (time : Nat)
      (ev1 ev2 : List DfsEvent),
      2 * countUndisc res + stack.length ≤ n →
      (dfsLoop g stack res time ev1).map projRT
        = (dfsLoop g stack res time ev2).map projRT := by
  intro n
  induction n with
  | zero =>
    intro stack res time ev1 ev2 hle
    cases stack with
    | nil => rw [dfsLoop_nil, dfsLoop_nil]; rfl
    | cons v rest => simp [List.length_cons] at hle
  | succ m ih =>
    intro stack res time ev1 ev2 hle
    cases stack with
    | nil => rw [dfsLoop_nil, dfsLoop_nil]; rfl
    | cons v rest =>
      rw [dfsLoop_cons, dfsLoop_cons]
      cases hv : at_v res v with
      | none => rfl
      | some ve =>
        dsimp only
        cases hsucc : successors g v with
        | none => rfl
        | some succs =>
          dsimp only
          cases hscan : scanSuccs res ve.discovery_t v succs with
          | none => rfl
          | some p =>
            obtain ⟨evs, r⟩ := p
            cases r with
            | none =>
              dsimp only
              apply ih
              rw [countUndisc_updAt_keep res v (fun e => {e with term_t := time + 1})
                (fun x => rfl)]
              simp only [List.length_cons] at hle
              omega
            | some s =>
              dsimp only
              obtain ⟨se, hse, hse0⟩ := scanSuccs_found res ve.discovery_t v succs evs s hscan
              obtain ⟨-, hU⟩ := preservesEntries_discover hse hse0 v time
              apply ih
              simp only [List.length_cons] at hle ⊢
              omega

theorem dfsLoop_pres (g : StarRep) :
    ∀ (n : Nat) (stack : List Nat) (res : List dfs_entry) (time : Nat)
      (events : List DfsEvent) (out : List dfs_entry × Nat × List DfsEvent),
      2 * countUndisc res + stack.length ≤ n →
      dfsLoop g stack res time events = some out →
      PreservesEntries res out.1 := by
  intro n
  induction n with
  | zero =>
    intro stack res time events out hle h
    cases stack with
    | nil =>
      rw [dfsLoop_nil] at h
      obtain rfl := Option.some.inj h
      exact preservesEntries_refl res
    | cons v rest => simp [List.length_cons] at hle
  | succ m ih =>
    intro stack res time events out hle h
    cases stack with
    | nil =>
      rw [dfsLoop_nil] at h
      obtain rfl := Option.some.inj h
      exact preservesEntries_refl res
    | cons v rest =>
      rw [dfsLoop_cons] at h
      cases hv : at_v res v with
      | none => rw [hv] at h; exact absurd h (by simp)
      | some ve =>
        rw [hv] at h
        dsimp only at h
        cases hsucc : successors g v with
        | none => rw [hsucc] at h; exact absurd h (by simp)
        | some succs =>
          rw [hsucc] at h
          dsimp only at h
          cases hscan : scanSuccs res ve.discovery_t v succs with
          | none => rw [hscan] at h; exact absurd h (by simp)
          | some p =>
            rw [hscan] at h
            obtain ⟨evs, r⟩ := p
            cases r with
            | none =>
              dsimp only at h
              refine preservesEntries_trans
                (preservesEntries_updAt_keep res v (fun e => {e with term_t := time + 1})
                  (fun x => rfl))
                (ih rest _ _ _ out ?_ h)
              rw [countUndisc_updAt_keep res v (fun e => {e with term_t := time + 1})
                (fun x => rfl)]
              simp only [List.length_cons] at hle
              omega
            | some s =>
              dsimp only at h
              obtain ⟨se, hse, hse0⟩ := scanSuccs_found res ve.discovery_t v succs evs s hscan
              obtain ⟨hP3, hU⟩ := preservesEntries_discover hse hse0 v time
              refine preservesEntries_trans hP3 (ih _ _ _ _ out ?_ h)
              simp only [List.length_cons] at hle ⊢
              omega

theorem recVisit_succ (g : StarRep) (f v : Nat) (res : List dfs_entry) (time : Nat) :
    recVisit g (f + 1) v res time = recRemain g f v res time := by
  unfold recVisit recRemain
  rfl

theorem dfsLoop_sim (g : StarRep) :
    ∀ (n : Nat) (res : List dfs_entry) (v : Nat) (rest : List Nat) (time : Nat)
      (events : List DfsEvent) (fuel : Nat) (ve : dfs_entry),
      countUndisc res < n →
      at_v res v = some ve → ve.discovery_t ≠ 0 →
      countUndisc res ≤ fuel →
      (dfsLoop g (v :: rest) res time events).map projRT
        = (recRemain g fuel v res time).bind
            (fun st => (dfsLoop g rest st.1 st.2 events).map projRT) := by
  intro n
  induction n with
  | zero =>
    intro res v rest time events fuel ve hn hve hvd hfuel
    exact absurd hn (by omega)
  | succ m ih =>
    intro res v rest time events fuel ve hn hve hvd hfuel
    rw [dfsLoop_cons, hve]
    dsimp only
    unfold recRemain
    cases hsucc : successors g v with
    | none => rfl
    | some l =>
      dsimp only
      cases hscan : scanSuccs res ve.discovery_t v l with
      | none =>
        rw [recSuccs_of_scan_none (recVisit g fuel) l time hscan]
        rfl
      | some p =>
        obtain ⟨evs, r⟩ := p
        cases r with
        | none =>
          dsimp only
          rw [recSuccs_of_scan_all (recVisit g fuel) l evs time hscan]
          simp only [Option.some_bind]
          exact dfsLoop_proj_events g
            (2 * countUndisc (updAt res v (fun x => {x with term_t := time + 1}))
              + rest.length)
            rest _ (time + 1) (events ++ evs) events (Nat.le_refl _)
        | some s =>
          dsimp only
          obtain ⟨se, hse, hse0⟩ := scanSuccs_found res ve.discovery_t v l evs s hscan
          obtain ⟨pre, post, hsplit, hpre⟩ := scanSuccs_split res ve.discovery_t v l evs s hscan
          obtain ⟨hP3, hU3⟩ := preservesEntries_discover hse hse0 v time
          have hU1 : 1 ≤ countUndisc res := countUndisc_pos hse hse0
          obtain ⟨f, rfl⟩ : ∃ f, fuel = f + 1 := ⟨fuel - 1, by omega⟩
          set res3 := updAt (updAt res s (fun e => {e with parent := v})) s
            (fun e => {e with discovery_t := time + 1}) with hres3
          have hse3 : at_v res3 s = some {se with parent := v, discovery_t := time + 1} := by
            rw [hres3, at_v_updAt, if_pos rfl, at_v_updAt, if_pos rfl, hse]
            rfl
          have hd3 : ({se with parent := v, discovery_t := time + 1} : dfs_entry).discovery_t ≠ 0 := by
            show time + 1 ≠ 0
            omega
          have hIH1 := ih res3 s (v :: rest) (time + 1)
            (events ++ evs ++ [DfsEvent.tree v s, DfsEvent.vertex s]) f
            ({se with parent := v, discovery_t := time + 1}) (by omega) hse3 hd3 (by omega)
          rw [hIH1]
          have hsplit2 : l = (pre ++ [s]) ++ post := by
            rw [hsplit, List.append_assoc, List.singleton_append]
          have hRHS : recSuccs (recVisit g (f + 1)) v l res time
              = Option.bind (recRemain g f s res3 (time + 1))
                  (fun st => recSuccs (recVisit g (f + 1)) v post st.1 st.2) := by
            rw [hsplit, recSuccs_skip (recVisit g (f + 1)) pre v (s :: post) res time hpre]
            conv_lhs => rw [recSuccs]
            rw [hse]
            dsimp only
            rw [if_pos hse0, ← hres3, recVisit_succ]
            cases hrec : recRemain g f s res3 (time + 1) with
            | none => rfl
            | some st => obtain ⟨r', t'⟩ := st; rfl
          rw [hRHS]
          cases hrec : recRemain g f s res3 (time + 1) with
          | none => rfl
          | some st1 =>
            obtain ⟨r1, t1⟩ := st1
            simp only [Option.some_bind]
            have hmono := recRemain_mono g f s res3 (time + 1) r1 t1 hrec
            obtain ⟨hv1, hvlen, -⟩ := at_v_some_bounds hve
            obtain ⟨ve', hve'⟩ := at_v_exists hv1
              (show v ≤ r1.length by rw [hmono.1, hP3.1]; omega)
            have hdv : discAt res v ≠ 0 := by rw [discAt_eq hve]; exact hvd
            have hdv3 : discAt res3 v = discAt res v := hP3.2.2 v hdv
            have hdv1 : discAt r1 v = discAt res3 v := hmono.2.2 v (by rw [hdv3]; exact hdv)
            have hvd' : ve'.discovery_t ≠ 0 := by
              rw [← discAt_eq hve', hdv1, hdv3]
              exact hdv
            have hb2 : countUndisc r1 < m := by
              have := hmono.2.1
              omega
            have hIH2 := ih r1 v rest t1
              (events ++ evs ++ [DfsEvent.tree v s, DfsEvent.vertex s]) (f + 1) ve'
              hb2 hve' hvd' (by have := hmono.2.1; omega)
            rw [hIH2]
            have hresolved : ∀ x ∈ pre ++ [s], ∃ xe, at_v r1 x = some xe
                ∧ xe.discovery_t ≠ 0 := by
              intro x hx
              rcases List.mem_append.mp hx with hx | hx
              · obtain ⟨xe, hxe, hxd⟩ := hpre x hx
                obtain ⟨hx1, hxlen, -⟩ := at_v_some_bounds hxe
                obtain ⟨xe', hxe'⟩ := at_v_exists hx1
                  (show x ≤ r1.length by rw [hmono.1, hP3.1]; omega)
                refine ⟨xe', hxe', ?_⟩
                have hda : discAt res x ≠ 0 := by rw [discAt_eq hxe]; exact hxd
                have hda3 : discAt res3 x = discAt res x := hP3.2.2 x hda
                have hda1 : discAt r1 x = discAt res3 x :=
                  hmono.2.2 x (by rw [hda3]; exact hda)
                rw [← discAt_eq hxe', hda1, hda3]
                exact hda
              · have hxs : x = s := by simpa using hx
                obtain ⟨hs1, hslen, -⟩ := at_v_some_bounds hse
                obtain ⟨xe', hxe'⟩ := at_v_exists (show 1 ≤ x by omega)
                  (show x ≤ r1.length by rw [hmono.1, hP3.1]; omega)
                refine ⟨xe', hxe', ?_⟩
                have hds3 : discAt res3 s = time + 1 := by rw [discAt_eq hse3]
                have hds1 : discAt r1 s = discAt res3 s :=
                  hmono.2.2 s (by rw [hds3]; omega)
                rw [← discAt_eq hxe', hxs, hds1, hds3]
                omega
            have hRHS2 : recRemain g (f + 1) v r1 t1
                = recSuccs (recVisit g (f + 1)) v post r1 t1 := by
              unfold recRemain
              rw [hsucc]
              dsimp only
              rw [hsplit2, recSuccs_skip (recVisit g (f + 1)) (pre ++ [s]) v post r1 t1
                hresolved]
            rw [hRHS2]
            cases hfin : recSuccs (recVisit g (f + 1)) v post r1 t1 with
            | none => rfl
            | some st2 =>
              obtain ⟨r2, t2⟩ := st2
              simp only [Option.some_bind]
              exact dfsLoop_proj_events g (2 * countUndisc r2 + rest.length) rest r2 t2
                (events ++ evs ++ [DfsEvent.tree v s, DfsEvent.vertex s]) events
                (Nat.le_refl _)

theorem countUndisc_replicate (k : Nat) : countUndisc (List.replicate k {}) = k := by
  induction k with
  | zero => rfl
  | succ m ih =>
    rw [List.replicate_succ]
    unfold countUndisc at ih ⊢
    rw [List.countP_cons]
    simp [ih]

theorem dfs_v_sim (g : StarRep) (res : List dfs_entry) (time : Nat)
    (events : List DfsEvent) (v fuel : Nat) (e : dfs_entry)
    (hve : at_v res v = some e) (h0 : e.discovery_t = 0)
    (hfuel : countUndisc res ≤ fuel + 1) :
    (dfs_v g res time events v).map projRT = dfs_v_rec g fuel res time v := by
  unfold dfs_v dfs_v_rec
  rw [hve]
  dsimp only
  have hve2 : at_v (updAt res v (fun e => {e with discovery_t := time + 1})) v
      = some {e with discovery_t := time + 1} := by
    rw [at_v_updAt, if_pos rfl, hve]
    rfl
  have hU2 := countUndisc_updAt_discover res v (time + 1) e hve h0 (by omega)
  have hsim := dfsLoop_sim g
    (countUndisc (updAt res v (fun e => {e with discovery_t := time + 1})) + 1)
    (updAt res v (fun e => {e with discovery_t := time + 1})) v [] (time + 1)
    (events ++ [DfsEvent.vertex v]) fuel ({e with discovery_t := time + 1})
    (by omega) hve2 (by show time + 1 ≠ 0; omega) (by omega)
  rw [hsim]
  cases recRemain g fuel v
      (updAt res v (fun e => {e with discovery_t := time + 1})) (time + 1) with
  | none => rfl
  | some st =>
    obtain ⟨r, t⟩ := st
    simp only [Option.some_bind]
    rw [dfsLoop_nil]
    rfl

theorem dfs_v_pres (g : StarRep) (res : List dfs_entry) (time : Nat)
    (events : List DfsEvent) (v : Nat) (out : List dfs_entry × Nat × List DfsEvent)
    (e : dfs_entry) (hve : at_v res v = some e) (h0 : e.discovery_t = 0)
    (h : dfs_v g res time events v = some out) :
    countUndisc out.1 + 1 ≤ countUndisc res := by
  unfold dfs_v at h
  rw [hve] at h
  dsimp only at h
  have hU2 := countUndisc_updAt_discover res v (time + 1) e hve h0 (by omega)
  have hp := dfsLoop_pres g
    (2 * countUndisc (updAt res v (fun e => {e with discovery_t := time + 1}))
      + ([v] : List Nat).length)
    [v] (updAt res v (fun e => {e with discovery_t := time + 1})) (time + 1)
    (events ++ [DfsEvent.vertex v]) out (Nat.le_refl _) h
  have := hp.2.1
  omega

theorem executeLoop_sim (g : StarRep) :
    ∀ (roots : List Nat) (res : List dfs_entry) (time : Nat)
      (events : List DfsEvent) (fuel : Nat),
      countUndisc res ≤ fuel + 1 →
      (executeLoop g roots res time events).map projRT
        = executeLoopRec g fuel roots res time := by
  intro roots
  induction roots with
  | nil => intro res time events fuel hf; rfl
  | cons v vs ih =>
    intro res time events fuel hf
    unfold executeLoop executeLoopRec
    cases hv : at_v res v with
    | none => rfl
    | some e =>
      dsimp only
      by_cases hd : e.discovery_t ≠ 0
      · simp only [if_pos hd]
        exact ih res time events fuel hf
      · simp only [if_neg hd]
        have h0 : e.discovery_t = 0 := not_not.mp hd
        rw [← dfs_v_sim g res time events v fuel e hv h0 hf]
        cases hdv : dfs_v g res time events v with
        | none => rfl
        | some out =>
          obtain ⟨r', t', ev'⟩ := out
          dsimp only
          refine ih r' t' ev' fuel ?_
          have := dfs_v_pres g res time events v (r', t', ev') e hv h0 hdv
          dsimp only at this
          omega

/-- C5: for every graph in the star representation, the iterative
execute assigns to every vertex exactly the discovery time, finish time
and parent that the standard recursive DFS reference produces, and ends
with the same clock, where the recursive reference starts a new tree at
each undiscovered vertex in ascending vertex order and enumerates the
successors of each vertex in the order successors(v) yields them.  The
two traversals agree on the whole entry table; they differ only in the
visitor event trace, which the recursive reference does not produce and
the projection projRT discards. -/
theorem execute_refines_recursive_dfs (g : StarRep) :
    (execute g).map projRT = executeRec g := by
  unfold execute executeRec
  exact executeLoop_sim g (vertexes g) (List.replicate (vertexes_count g) {}) 0 []
    (vertexes_count g + 1) (by rw [countUndisc_replicate]; omega)
